import Mathlib

/-!
# Composable indexed views of `cmd/gotraceui/items.go`

A shallow embedding of the `Items[T]` view family (`SimpleItems`, `MergedItems`,
`NoItems`, `ItemsSubset`, `SortedItems`) and of the free functions `MergeItems`
and `FilterItems`.

Modelling conventions.

* Go `int` values are `Int`; loop counters that start at zero and only grow are `Nat`.
* A Go panic (index out of range, slice bounds out of range, explicit `panic`)
  is the result `none`.
* A pointer `*T` is modelled by the value it points to, so `less` and the filter
  predicate receive item values.
* `ItemContainer` is declared outside `items.go`; it is a comparable struct, taken
  here as a type parameter `C` with decidable equality whose zero value
  `ItemContainer{}` is `default`.
* A Go slice is the pair of its visible elements and of the elements of its backing
  array between its length and its capacity (`GoSlice`), so that re-slicing up to the
  capacity behaves as in Go.
-/

/-- A Go slice: the `len` visible elements and the spare elements up to `cap`. -/
structure GoSlice (α : Type) where
  elems : List α
  spare : List α
deriving DecidableEq, Repr

namespace GoSlice

variable {α : Type}

/-- Go `len(s)`. -/
def len (s : GoSlice α) : Int := s.elems.length

/-- Go `cap(s)`. -/
def cap (s : GoSlice α) : Int := s.elems.length + s.spare.length

/-- Go `s[start:end]`: panics unless `0 <= start <= end <= cap(s)`. -/
def slice (s : GoSlice α) (start stop : Int) : Option (GoSlice α) :=
  if 0 ≤ start ∧ start ≤ stop ∧ stop ≤ s.cap then
    some ⟨((s.elems ++ s.spare).drop start.toNat).take (stop - start).toNat,
          (s.elems ++ s.spare).drop stop.toNat⟩
  else none

end GoSlice

/-- Go `l[i]` on the visible elements of a slice: panics unless `0 <= i < len(l)`. -/
def getI {α : Type} (l : List α) (i : Int) : Option α :=
  if i < 0 then none else l[i.toNat]?

/-- The closed family of views implementing the `Items[T]` interface. -/
inductive Items (T C : Type) where
  | SimpleItems (items : GoSlice T) (container : C) (contiguous subslice : Bool)
  | MergedItems (bases : List (Items T C)) (singleContainer : C) (indices : List Int)
      (start stop : Int)
  | NoItems
  | ItemsSubset (Base : Items T C) (Subset : GoSlice Int)
  | SortedItems (Base : Items T C) (Order : GoSlice Int)

namespace Items

variable {T C : Type}

/-- The method `Len` of each view kind. -/
def Len : Items T C → Int
  | SimpleItems items _ _ _ => items.elems.length
  | MergedItems _ _ _ start stop => stop - start
  | NoItems => 0
  | ItemsSubset _ Subset => Subset.elems.length
  | SortedItems _ Order => Order.elems.length

/-- The `for i, s := range items.bases` loop of `MergedItems.index`: either the loop
returns `(i, idx)` from inside, or it runs to the end and leaves the reduced `idx`. -/
def indexLoop : List (Items T C) → Nat → Int → Sum (Nat × Int) Int
  | [], _, idx => Sum.inr idx
  | s :: rest, i, idx =>
      if s.Len > idx then Sum.inl (i, idx) else indexLoop rest (i + 1) (idx - s.Len)

/-- The method `MergedItems.index`, on the fields of the receiver. -/
def index (bases : List (Items T C)) (indices : List Int) (start : Int) (idx : Int) :
    Option (Nat × Int) :=
  match (if indices.length ≠ 0 then getI indices (idx + start) else some (idx + start)) with
  | none => none
  | some idx1 =>
    match indexLoop bases 0 idx1 with
    | Sum.inl r => some r
    | Sum.inr idx2 =>
      if idx2 = 0 then
        match bases.getLast? with
        | none => none
        | some l => some (bases.length - 1, l.Len)
      else none

mutual
/-- The method `At` of each view kind. -/
def At : Items T C → Int → Option T
  | SimpleItems items _ _ _, idx => getI items.elems idx
  | MergedItems bases _ indices start _, idx =>
      match index bases indices start idx with
      | none => none
      | some (a, b) => AtList bases a b
  | NoItems, _ => none
  | ItemsSubset Base Subset, idx =>
      match getI Subset.elems idx with
      | none => none
      | some j => At Base j
  | SortedItems Base Order, idx =>
      match getI Order.elems idx with
      | none => none
      | some j => At Base j
/-- The call `bases[a].At(b)`. -/
def AtList : List (Items T C) → Nat → Int → Option T
  | [], _, _ => none
  | s :: _, 0, b => At s b
  | _ :: rest, a + 1, b => AtList rest a b
end

mutual
/-- The method `AtPtr` of each view kind; the pointer is modelled by its target. -/
def AtPtr : Items T C → Int → Option T
  | SimpleItems items _ _ _, idx => getI items.elems idx
  | MergedItems bases _ indices start _, idx =>
      match index bases indices start idx with
      | none => none
      | some (a, b) => AtPtrList bases a b
  | NoItems, _ => none
  | ItemsSubset Base Subset, idx =>
      match getI Subset.elems idx with
      | none => none
      | some j => AtPtr Base j
  | SortedItems Base Order, idx =>
      match getI Order.elems idx with
      | none => none
      | some j => AtPtr Base j
/-- The call `bases[a].AtPtr(b)`. -/
def AtPtrList : List (Items T C) → Nat → Int → Option T
  | [], _, _ => none
  | s :: _, 0, b => AtPtr s b
  | _ :: rest, a + 1, b => AtPtrList rest a b
end

mutual
/-- The method `ContainerAt` of each view kind. -/
def ContainerAt : Items T C → Int → Option C
  | SimpleItems _ container _ _, _ => some container
  | MergedItems bases _ indices start _, idx =>
      match index bases indices start idx with
      | none => none
      | some (a, b) => ContainerAtList bases a b
  | NoItems, _ => none
  | ItemsSubset Base Subset, idx =>
      match getI Subset.elems idx with
      | none => none
      | some j => ContainerAt Base j
  | SortedItems Base Order, idx =>
      match getI Order.elems idx with
      | none => none
      | some j => ContainerAt Base j
/-- The call `bases[a].ContainerAt(b)`. -/
def ContainerAtList : List (Items T C) → Nat → Int → Option C
  | [], _, _ => none
  | s :: _, 0, b => ContainerAt s b
  | _ :: rest, a + 1, b => ContainerAtList rest a b
end

/-- The method `Container` of each view kind. -/
def Container [DecidableEq C] [Inhabited C] : Items T C → Option (C × Bool)
  | SimpleItems _ container _ _ => some (container, true)
  | MergedItems bases singleContainer indices start stop =>
      if singleContainer ≠ default then some (singleContainer, true)
      else if stop - start = 1 then
        match ContainerAt (MergedItems bases singleContainer indices start stop) 0 with
        | none => none
        | some c => some (c, true)
      else some (default, false)
  | NoItems => some (default, false)
  | ItemsSubset Base Subset =>
      if (Subset.elems.length : Int) = 1 then
        match ContainerAt (ItemsSubset Base Subset) 0 with
        | none => none
        | some c => some (c, true)
      else Container Base
  | SortedItems Base Order =>
      if (Order.elems.length : Int) = 1 then
        match ContainerAt (SortedItems Base Order) 0 with
        | none => none
        | some c => some (c, true)
      else Container Base

/-- The method `Contiguous` of each view kind. -/
def Contiguous : Items T C → Bool
  | SimpleItems _ _ contiguous _ => contiguous
  | MergedItems [] _ _ _ _ => true
  | MergedItems [b] _ _ _ _ => Contiguous b
  | MergedItems (_ :: _ :: _) _ _ _ _ => false
  | NoItems => true
  | ItemsSubset _ _ => false
  | SortedItems _ _ => false

/-- The method `Subslice` of each view kind. -/
def Subslice : Items T C → Bool
  | SimpleItems _ _ _ subslice => subslice
  | MergedItems [] _ _ _ _ => true
  | MergedItems [b] _ _ _ _ => Subslice b
  | MergedItems (_ :: _ :: _) _ _ start stop => decide (stop - start < 2)
  | NoItems => true
  | ItemsSubset _ _ => false
  | SortedItems _ _ => false

/-- The method `Slice` of each view kind. -/
def Slice : Items T C → Int → Int → Option (Items T C)
  | SimpleItems items container contiguous subslice, s, e =>
      match items.slice s e with
      | none => none
      | some items1 => some (SimpleItems items1 container contiguous subslice)
  | MergedItems bases singleContainer indices start _, s, e =>
      some (MergedItems bases singleContainer indices (start + s) (start + s + (e - s)))
  | NoItems, s, e => if s = 0 ∧ e = 0 then some NoItems else none
  | ItemsSubset Base Subset, s, e =>
      match Subset.slice s e with
      | none => none
      | some sub => some (ItemsSubset Base sub)
  | SortedItems Base Order, s, e =>
      match Order.slice s e with
      | none => none
      | some ord => some (SortedItems Base ord)

end Items

open Items

section Merge

variable {T C : Type}

/-- The prefix sums written into `startOffsets` by `MergedItems.sort`. -/
def startOffsetsFrom : Int → List (Items T C) → List Int
  | _, [] => []
  | acc, b :: rest => acc :: startOffsetsFrom (acc + b.Len) rest

/-- The inner loop of `MergedItems.sort`: scans the bases from index `j` on, keeping
in the accumulator `minBaseIdx` and `minItem` (`none` stands for `minBaseIdx == -1`).
The outer `Option` is `none` when `b.AtPtr` panics. -/
def scanBases (less : T → T → Bool) :
    List (Items T C) → List Nat → Nat → Option (Nat × T) → Option (Option (Nat × T))
  | [], _, _, acc => some acc
  | _ :: _, [], _, _ => none
  | b :: bs, o :: os, j, acc =>
      if (o : Int) = b.Len then scanBases less bs os (j + 1) acc
      else
        match b.AtPtr o with
        | none => none
        | some candidate =>
          match acc with
          | none => scanBases less bs os (j + 1) (some (j, candidate))
          | some (minBaseIdx, minItem) =>
            if less candidate minItem then scanBases less bs os (j + 1) (some (j, candidate))
            else scanBases less bs os (j + 1) (some (minBaseIdx, minItem))

/-- The outer loop `for i := 0; i < n; i++` of `MergedItems.sort`; the first argument
is the number of iterations still to run. -/
def sortLoop (less : T → T → Bool) (bases : List (Items T C)) (startOffsets : List Int) :
    Nat → List Nat → List Int → Option (List Int)
  | 0, _, indices => some indices
  | k + 1, offsets, indices =>
      match scanBases less bases offsets 0 none with
      | none => none
      | some none => none
      | some (some (minBaseIdx, _)) =>
        match startOffsets[minBaseIdx]?, offsets[minBaseIdx]? with
        | some so, some o =>
            sortLoop less bases startOffsets k (offsets.set minBaseIdx (o + 1))
              (indices ++ [so + (o : Int)])
        | _, _ => none

/-- The sum `n` of the lengths of the bases. -/
def totalLen (bases : List (Items T C)) : Int := (bases.map Items.Len).sum

/-- The method `MergedItems.sort`: returns the computed `indices`. It panics when `n`
is negative (`make`), when `bases` is empty (`items.bases[:len(items.bases)-1]`),
when an `AtPtr` panics and when no base has an item left. -/
def MergedItems.sort (bases : List (Items T C)) (less : T → T → Bool) : Option (List Int) :=
  if totalLen bases < 0 then none
  else if bases.length = 0 then none
  else
    sortLoop less bases (startOffsetsFrom 0 bases) (totalLen bases).toNat
      (List.replicate bases.length 0) []

/-- The flattening step of the first loop of `MergeItems`: a merge view contributes
its bases (`append(bases, ms.bases...)`), any other view contributes itself. -/
def appendBases (bases : List (Items T C)) : Items T C → List (Items T C)
  | MergedItems msBases _ _ _ _ => bases ++ msBases
  | ss => bases ++ [ss]

/-- The first loop of `MergeItems` over the state
`(singleContainer, hasSingleContainer, first, bases)`. -/
def mergeLoop [DecidableEq C] [Inhabited C] :
    List (Items T C) → C × Bool × Bool × List (Items T C) →
      Option (C × Bool × Bool × List (Items T C))
  | [], st => some st
  | ss :: rest, (singleContainer, hasSingleContainer, first, bases) =>
      if ss.Len = 0 then mergeLoop rest (singleContainer, hasSingleContainer, first, bases)
      else
        match ss.Container with
        | none => none
        | some (c, ok) =>
          let sc1 := if first then c else singleContainer
          let has1 := if first then ok else hasSingleContainer
          let has2 := if !ok || decide (c ≠ sc1) then false else has1
          mergeLoop rest (sc1, has2, false, appendBases bases ss)

/-- The function `MergeItems`. -/
def MergeItems [DecidableEq C] [Inhabited C] (items : List (Items T C))
    (less : T → T → Bool) : Option (Items T C) :=
  match items with
  | [] => some NoItems
  | [v] => some v
  | _ =>
    match mergeLoop items (default, false, true, []) with
    | none => none
    | some (singleContainer, hasSingleContainer, _, bases) =>
      let n := totalLen bases
      let sc := if !hasSingleContainer then default else singleContainer
      match MergedItems.sort bases less with
      | none => none
      | some indices => some (MergedItems bases sc indices 0 n)

end Merge

section Filter

variable {T C : Type}

/-- The loop of `FilterItems` over the positions still to visit. -/
def filterLoop (items : Items T C) (fn : T → Bool) : List Nat → List Int → Option (List Int)
  | [], subset => some subset
  | i :: rest, subset =>
      match items.AtPtr i with
      | none => none
      | some x => filterLoop items fn rest (if fn x then subset ++ [(i : Int)] else subset)

/-- The function `FilterItems`. The capacity `append` leaves behind is not fixed by
the language; the subset is given none. -/
def FilterItems (items : Items T C) (fn : T → Bool) : Option (Items T C) :=
  match filterLoop items fn (List.range items.Len.toNat) [] with
  | none => none
  | some subset =>
    if (subset.length : Int) = items.Len then some items
    else if subset.length = 0 then some NoItems
    else some (ItemsSubset items ⟨subset, []⟩)

end Filter

/-! ## Observations on views used in the statements -/

namespace Items
variable {T C : Type}

/-- The item sequence `At(0), ..., At(Len()-1)` of a view. -/
def seq (v : Items T C) : List (Option T) :=
  (List.range v.Len.toNat).map (fun (i : Nat) => v.At (i : Int))

/-- A view honours the access contract. -/
def Accessible (v : Items T C) : Prop :=
  0 ≤ v.Len ∧ ∀ i : Nat, i ∈ List.range v.Len.toNat → (v.AtPtr (i : Int)).isSome = true

instance (v : Items T C) : Decidable (Accessible v) := by
  unfold Accessible; infer_instance

/-- Whether the predicate holds on the item at position `i`. -/
def holdsAt (v : Items T C) (fn : T → Bool) (i : Nat) : Bool :=
  match v.AtPtr (i : Int) with
  | some x => fn x
  | none => false

/-- Whether a view is a `MergedItems` (the type assertion `ss.(MergedItems[T])`). -/
def isMerged : Items T C → Bool
  | MergedItems _ _ _ _ _ => true
  | _ => false

end Items

/-! ## Specification vocabulary for `MergeItems` -/

section MergeSpec

variable {T C : Type}

/-- The comparison is a strict weak order on items. -/
structure StrictWeakOrder (less : T → T → Bool) : Prop where
  irrefl : ∀ a, less a a = false
  trans : ∀ a b c, less a b = true → less b c = true → less a c = true
  incomp_trans : ∀ a b c, less a b = false → less b a = false → less b c = false →
    less c b = false → less a c = false ∧ less c a = false

/-- Whether the item at position `j` of `v` is less than the one at position `i`. -/
def lessAt (less : T → T → Bool) (v : Items T C) (j i : Nat) : Bool :=
  match v.AtPtr (j : Int), v.AtPtr (i : Int) with
  | some y, some x => less y x
  | _, _ => false

/-- The view is sorted under `less`: no item is less than an earlier one. -/
def Items.SortedUnder (less : T → T → Bool) (v : Items T C) : Prop :=
  ∀ j : Nat, j ∈ List.range v.Len.toNat → ∀ i : Nat, i ∈ List.range j →
    lessAt less v j i = false

instance (less : T → T → Bool) (v : Items T C) : Decidable (v.SortedUnder less) := by
  unfold Items.SortedUnder; infer_instance

/-- The base list the first loop of `MergeItems` builds: the non-empty inputs in order,
a merge view replaced by its bases. -/
def flattenBases : List (Items T C) → List (Items T C)
  | [] => []
  | ss :: rest =>
      if ss.Len = 0 then flattenBases rest else appendBases [] ss ++ flattenBases rest

/-- The item of base `p.1` at position `p.2`. -/
def itemAt (bases : List (Items T C)) (p : Nat × Nat) : Option T :=
  match bases[p.1]? with
  | some b => b.AtPtr (p.2 : Int)
  | none => none

/-- The absolute position of the item of base `p.1` at position `p.2`, as
`MergedItems.sort` computes it: `startOffsets[p.1] + p.2`. -/
def absPos (bases : List (Items T C)) (p : Nat × Nat) : Int :=
  ((startOffsetsFrom 0 bases)[p.1]?).getD 0 + (p.2 : Int)

/-- Base `i` is not exhausted at the current offsets and its next item is `c`. -/
def IsCand (bases : List (Items T C)) (offsets : List Nat) (i : Nat) (c : T) : Prop :=
  ∃ b o, bases[i]? = some b ∧ offsets[i]? = some o ∧ (o : Int) ≠ b.Len ∧
    b.AtPtr (o : Int) = some c

/-- What the accumulator of the inner loop of `MergedItems.sort` satisfies after the
bases before `j` have been scanned. -/
def AccInv (less : T → T → Bool) (bases : List (Items T C)) (offsets : List Nat) (j : Nat) :
    Option (Nat × T) → Prop
  | none => ∀ i c, i < j → ¬ IsCand bases offsets i c
  | some (m, c) => m < j ∧ IsCand bases offsets m c ∧
      (StrictWeakOrder less →
        (∀ i ci, i < m → IsCand bases offsets i ci → less c ci = true) ∧
        (∀ i ci, m < i → i < j → IsCand bases offsets i ci → less ci c = false))

/-- The hypotheses under which the merge is stable. -/
def StableHyp (less : T → T → Bool) (bases : List (Items T C)) : Prop :=
  StrictWeakOrder less ∧ ∀ b ∈ bases, b.SortedUnder less

/-- The order `MergedItems.sort` keeps between an item `p` picked before an item `q`. -/
def PickBefore (less : T → T → Bool) (bases : List (Items T C)) (p q : Nat × Nat) : Prop :=
  (p.1 = q.1 → p.2 < q.2) ∧
  (StableHyp less bases → q.1 < p.1 → ∀ x y, itemAt bases q = some x → itemAt bases p = some y →
    ¬ (less x y = false ∧ less y x = false))

/-- The invariant of the outer loop of `MergedItems.sort`, on the offsets and on the
items picked so far (as pairs of base and position). -/
structure SortInv (less : T → T → Bool) (bases : List (Items T C)) (offsets : List Nat)
    (picks : List (Nat × Nat)) : Prop where
  hlen : offsets.length = bases.length
  hle : ∀ (j : Nat) (b : Items T C) (o : Nat), bases[j]? = some b → offsets[j]? = some o → (o : Int) ≤ b.Len
  hmem : ∀ j o, (j, o) ∈ picks ↔ ∃ oj, offsets[j]? = some oj ∧ o < oj
  hcount : picks.length = offsets.sum
  hord : picks.Pairwise (PickBefore less bases)
  hstab : StableHyp less bases → ∀ p ∈ picks, ∀ (a1 o1 : Nat) (b1 : Items T C) (x y : T), a1 < p.1 →
    bases[a1]? = some b1 → (o1 : Int) < b1.Len → b1.AtPtr (o1 : Int) = some x →
    itemAt bases p = some y → less x y = false → less y x = false →
    ∃ oj, offsets[a1]? = some oj ∧ o1 < oj

end MergeSpec

/-! ## Concrete views and comparisons -/

section Examples

/-- A base view over naturals, container tag `c`. -/
def base (c : Nat) (xs : List Nat) : Items Nat Nat := SimpleItems ⟨xs, []⟩ c true true

/-- The comparison `a < b`. -/
def ltNat (a b : Nat) : Bool := decide (a < b)

/-- The comparison `a > b`. -/
def gtNat (a b : Nat) : Bool := decide (b < a)

/-- The comparison of the tens: `a / 10 < b / 10`. -/
def tensLt (a b : Nat) : Bool := decide (a / 10 < b / 10)

end Examples

/-! ## Sort views -/

section SortViews

variable {T C : Type}

/-- The list `0, 1, ..., n-1` written by the loops `for i := range order { order[i] = i }`. -/
def identityOrder (n : Nat) : List Int := (List.range n).map (fun (i : Nat) => (i : Int))

/-- The function `NewSortedItems`; `make([]int, items.Len())` panics on a negative length. -/
def NewSortedItems (items : Items T C) : Option (Items T C) :=
  if items.Len < 0 then none
  else some (SortedItems items ⟨identityOrder items.Len.toNat, []⟩)

/-- The method `SortedItems.Reset`, on the fields of the receiver; the result is the new
value of the receiver. The branch `make([]int, items.Len())` is only reached with
`items.Len() > cap(s.Order) >= 0`. -/
def SortedItems.Reset (_Base : Items T C) (Order : GoSlice Int) (items : Items T C) :
    Option (Items T C) :=
  if Order.cap ≥ items.Len then
    match Order.slice 0 items.Len with
    | none => none
    | some order => some (SortedItems items ⟨identityOrder order.elems.length, order.spare⟩)
  else some (SortedItems items ⟨identityOrder items.Len.toNat, []⟩)

/-- The method `SortedItems.Map`, on the field `Order` of the receiver. -/
def SortedItems.Map (Order : GoSlice Int) (idx : Int) : Option Int := getI Order.elems idx

/-- The comparison `SortedItems.Sort` passes to `slices.SortFunc`: it compares the items
of the base at the two positions; it is only evaluated where both `At` succeed. -/
def orderCmp (Base : Items T C) (cmp : T → T → Int) (a b : Int) : Int :=
  match Base.At a, Base.At b with
  | some ea, some eb => cmp ea eb
  | _, _ => 0

/-- The method `SortedItems.Sort`, on the fields of the receiver; the result is the view
the caller sees afterwards (the permutation is sorted in place). `slices.SortFunc` belongs
to the Go standard library and is the parameter `sortFunc`. No comparison is made on fewer
than two elements; on two or more every element is compared, so the call panics when
`Base.At` panics on an element of the permutation. -/
def SortedItems.Sort (sortFunc : (Int → Int → Int) → List Int → List Int) (Base : Items T C)
    (Order : GoSlice Int) (cmp : T → T → Int) : Option (Items T C) :=
  if Order.elems.length < 2 then some (SortedItems Base Order)
  else if Order.elems.all (fun a => (Base.At a).isSome) then
    some (SortedItems Base ⟨sortFunc (orderCmp Base cmp) Order.elems, Order.spare⟩)
  else none

/-- The documented contract of `slices.SortFunc`: when `cmp` is a consistent total
preorder on the elements of the slice, the result is a permutation of the slice in
ascending order. -/
def SortFuncContract (sortFunc : (Int → Int → Int) → List Int → List Int) : Prop :=
  ∀ (cmp : Int → Int → Int) (l : List Int),
    (∀ a ∈ l, ∀ b ∈ l, (cmp a b < 0 ↔ 0 < cmp b a)) →
    (∀ a ∈ l, ∀ b ∈ l, ∀ c ∈ l, cmp a b ≤ 0 → cmp b c ≤ 0 → cmp a c ≤ 0) →
    (sortFunc cmp l).Perm l ∧ (sortFunc cmp l).Pairwise (fun a b => cmp a b ≤ 0)

/-- The three-way comparison is a consistent total preorder on items. -/
structure ThreeWayPreorder (cmp : T → T → Int) : Prop where
  antisymm : ∀ a b, cmp a b < 0 ↔ 0 < cmp b a
  trans : ∀ a b c, cmp a b ≤ 0 → cmp b c ≤ 0 → cmp a c ≤ 0

/-- Insertion of one element into an ascending list. -/
def insertAsc (cmp : Int → Int → Int) (x : Int) : List Int → List Int
  | [] => [x]
  | y :: ys => if cmp x y ≤ 0 then x :: y :: ys else y :: insertAsc cmp x ys

/-- An insertion sort, one function that meets `SortFuncContract`. -/
def insertionSortFunc (cmp : Int → Int → Int) : List Int → List Int
  | [] => []
  | x :: xs => insertAsc cmp x (insertionSortFunc cmp xs)

end SortViews

/-! ## Shape of merge views -/

namespace Items
variable {T C : Type}

/-- The base list of a merge view holds no merge view (any other view has no base list). -/
def basesFlat : Items T C → Bool
  | MergedItems bases _ _ _ _ => bases.all (fun b => !b.isMerged)
  | _ => true

/-- The window of a merge view lies inside its bases: `0 <= start` and
`end <= total length of the bases`, as after valid `Slice` calls. -/
def windowInside : Items T C → Prop
  | MergedItems bases _ _ start stop => 0 ≤ start ∧ stop ≤ totalLen bases
  | _ => True

instance (v : Items T C) : Decidable v.windowInside := by
  cases v <;> unfold windowInside <;> infer_instance

end Items

/-- The three-way comparison of naturals `a - b`. -/
def cmpNat (a b : Nat) : Int := (a : Int) - (b : Int)

/-! ## Narrowing by valid `Slice` calls -/

section Narrowing

variable {T C : Type}

/-- The view after a sequence of `Slice(s, e)` calls, each with valid bounds
`0 <= s <= e <= Len()` on the view it is applied to; `none` when a call has invalid bounds
or panics. -/
def narrow : Items T C → List (Int × Int) → Option (Items T C)
  | v, [] => some v
  | v, (s, e) :: cuts =>
      if 0 ≤ s ∧ s ≤ e ∧ e ≤ v.Len then
        match v.Slice s e with
        | none => none
        | some w => narrow w cuts
      else none

end Narrowing

/-! ## The concrete comparisons are strict weak orders -/

theorem ltNat_strictWeakOrder : StrictWeakOrder ltNat :=
  ⟨fun a => by simp [ltNat],
   fun a b c h1 h2 => by simp only [ltNat, decide_eq_true_eq] at *; omega,
   fun a b c h1 h2 h3 h4 => by simp only [ltNat, decide_eq_false_iff_not] at *; omega⟩

theorem tensLt_strictWeakOrder : StrictWeakOrder tensLt :=
  ⟨fun a => by simp [tensLt],
   fun a b c h1 h2 => by simp only [tensLt, decide_eq_true_eq] at *; omega,
   fun a b c h1 h2 h3 h4 => by simp only [tensLt, decide_eq_false_iff_not] at *; omega⟩

/-! ## Access lemmas -/

mutual
theorem Items.AtPtr_eq_At {T C : Type} : ∀ (v : Items T C) (i : Int), v.AtPtr i = v.At i
  | SimpleItems _ _ _ _, _ => rfl
  | MergedItems bases _ indices start _, i => by
      simp only [Items.AtPtr, Items.At]
      cases index bases indices start i with
      | none => rfl
      | some p => exact Items.AtPtrList_eq_AtList bases p.1 p.2
  | NoItems, _ => rfl
  | ItemsSubset Base Subset, i => by
      simp only [Items.AtPtr, Items.At]
      cases getI Subset.elems i with
      | none => rfl
      | some j => exact Items.AtPtr_eq_At Base j
  | SortedItems Base Order, i => by
      simp only [Items.AtPtr, Items.At]
      cases getI Order.elems i with
      | none => rfl
      | some j => exact Items.AtPtr_eq_At Base j
theorem Items.AtPtrList_eq_AtList {T C : Type} :
    ∀ (bs : List (Items T C)) (a : Nat) (b : Int), AtPtrList bs a b = AtList bs a b
  | [], _, _ => rfl
  | s :: _, 0, b => by simpa [Items.AtPtrList, Items.AtList] using Items.AtPtr_eq_At s b
  | _ :: rest, a + 1, b => by
      simpa [Items.AtPtrList, Items.AtList] using Items.AtPtrList_eq_AtList rest a b
end

/-! ## `FilterItems` -/

section FilterProofs
variable {T C : Type}

theorem filterLoop_eq (items : Items T C) (fn : T → Bool) :
    ∀ (ps : List Nat) (subset : List Int),
      (∀ i : Nat, i ∈ ps → (items.AtPtr (i : Int)).isSome = true) →
      filterLoop items fn ps subset
        = some (subset ++ (ps.filter (items.holdsAt fn)).map (fun (i : Nat) => (i : Int))) := by
  intro ps
  induction ps with
  | nil => intro subset _; simp [filterLoop]
  | cons i rest ih =>
    intro subset h
    have hi := h i (List.mem_cons_self _ _)
    have hrest : ∀ j : Nat, j ∈ rest → (items.AtPtr (j : Int)).isSome = true :=
      fun j hj => h j (List.mem_cons_of_mem _ hj)
    obtain ⟨x, hx⟩ := Option.isSome_iff_exists.mp hi
    simp only [filterLoop, hx]
    rw [ih _ hrest]
    by_cases hf : fn x = true
    · simp [List.filter_cons, Items.holdsAt, hx, hf]
    · simp [List.filter_cons, Items.holdsAt, hx, hf]

theorem getI_natCast {α : Type} (l : List α) (i : Nat) : getI l (i : Int) = l[i]? := by
  unfold getI
  have : ¬ ((i : Int) < 0) := by omega
  simp [this]

theorem seq_subset (v : Items T C) (subset : List Nat) :
    (ItemsSubset v ⟨subset.map (fun (i : Nat) => (i : Int)), []⟩).seq
      = subset.map (fun (i : Nat) => v.At (i : Int)) := by
  apply List.ext_getElem?
  intro n
  simp only [Items.seq, Items.Len, List.length_map, Int.toNat_ofNat, List.getElem?_map]
  by_cases hn : n < subset.length
  · rw [List.getElem?_range hn]
    simp [Items.At, getI_natCast, List.getElem?_eq_getElem hn]
  · have h1 : (List.range subset.length)[n]? = none := by
      apply List.getElem?_eq_none; simpa using hn
    have h2 : subset[n]? = none := by
      apply List.getElem?_eq_none; omega
    simp [h1, h2]

end FilterProofs

section FilterClaims
variable {T C : Type}

theorem FilterItems_eq (v : Items T C) (fn : T → Bool)
    (hv : ∀ i : Nat, i ∈ List.range v.Len.toNat → (v.AtPtr (i : Int)).isSome = true) :
    FilterItems v fn =
      (if ((((List.range v.Len.toNat).filter (v.holdsAt fn)).length : Nat) : Int) = v.Len then
        some v
      else if ((List.range v.Len.toNat).filter (v.holdsAt fn)).length = 0 then some NoItems
      else some (ItemsSubset v
        ⟨((List.range v.Len.toNat).filter (v.holdsAt fn)).map (fun (i : Nat) => (i : Int)), []⟩)) := by
  unfold FilterItems
  rw [filterLoop_eq v fn _ _ hv]
  simp only [List.nil_append, List.length_map]

/-- C4: the item sequence of `FilterItems(v, p)` is the subsequence of the items of `v`,
in their original order, on which `p` holds (for a view `v` whose positions
`0 .. Len()-1` are all accessible). -/
theorem FilterItems_seq (v : Items T C) (fn : T → Bool) (hv : v.Accessible) :
    ∃ r, FilterItems v fn = some r ∧
      r.seq = v.seq.filter (fun o => match o with
        | some x => fn x
        | none => false) := by
  obtain ⟨hlen, hacc⟩ := hv
  have hcomp : ((fun o : Option T => match o with
        | some x => fn x
        | none => false) ∘ (fun (i : Nat) => v.At (i : Int))) = v.holdsAt fn := by
    funext i
    simp only [Function.comp, Items.holdsAt, Items.AtPtr_eq_At]
  have hseq : v.seq.filter (fun o => match o with
        | some x => fn x
        | none => false)
      = ((List.range v.Len.toNat).filter (v.holdsAt fn)).map (fun (i : Nat) => v.At (i : Int)) := by
    unfold Items.seq
    rw [List.filter_map, hcomp]
  rw [FilterItems_eq v fn hacc, hseq]
  by_cases h1 : ((((List.range v.Len.toNat).filter (v.holdsAt fn)).length : Nat) : Int) = v.Len
  · refine ⟨v, by rw [if_pos h1], ?_⟩
    have h2 : ((List.range v.Len.toNat).filter (v.holdsAt fn)).length
        = (List.range v.Len.toNat).length := by
      rw [List.length_range]; omega
    have h3 := List.filter_eq_self.mpr (List.filter_length_eq_length.mp h2)
    rw [h3]; rfl
  · by_cases h2 : ((List.range v.Len.toNat).filter (v.holdsAt fn)).length = 0
    · refine ⟨NoItems, by rw [if_neg h1, if_pos h2], ?_⟩
      have h3 : (List.range v.Len.toNat).filter (v.holdsAt fn) = [] :=
        List.length_eq_zero.mp h2
      rw [h3]; rfl
    · refine ⟨_, by rw [if_neg h1, if_neg h2], ?_⟩
      exact seq_subset v _

/-- Witness of C4: filtering the even items of the base `[1, 2, 3, 4]`. -/
theorem FilterItems_seq_witness :
    (base 0 [1, 2, 3, 4]).Accessible ∧
    ∃ r, FilterItems (base 0 [1, 2, 3, 4]) (fun x => x % 2 == 0) = some r ∧
      r.seq = (base 0 [1, 2, 3, 4]).seq.filter (fun o => match o with
        | some x => x % 2 == 0
        | none => false) :=
  ⟨by decide, FilterItems_seq (base 0 [1, 2, 3, 4]) (fun x => x % 2 == 0) (by decide)⟩

/-- C8: when `p` holds on every item of `v`, `FilterItems(v, p)` is `v` itself, hence it
has the `Contiguous()`, `Subslice()` and `Container()` of `v`. -/
theorem FilterItems_all (v : Items T C) (fn : T → Bool) (hlen : 0 ≤ v.Len)
    (hall : ∀ i : Nat, i ∈ List.range v.Len.toNat → v.holdsAt fn i = true) :
    FilterItems v fn = some v := by
  have hacc : ∀ i : Nat, i ∈ List.range v.Len.toNat → (v.AtPtr (i : Int)).isSome = true := by
    intro i hi
    have := hall i hi
    unfold Items.holdsAt at this
    cases h : v.AtPtr (i : Int) with
    | none => rw [h] at this; exact absurd this (by simp)
    | some x => rfl
  rw [FilterItems_eq v fn hacc]
  have h3 := List.filter_eq_self.mpr hall
  rw [h3, List.length_range]
  have : ((v.Len.toNat : Nat) : Int) = v.Len := Int.toNat_of_nonneg hlen
  simp [this]

/-- Witness of C8: every item of the base `[2, 4]` is even. -/
theorem FilterItems_all_witness :
    FilterItems (base 7 [2, 4]) (fun x => x % 2 == 0) = some (base 7 [2, 4]) :=
  FilterItems_all (base 7 [2, 4]) (fun x => x % 2 == 0) (by decide) (by decide)

/-- C9, as stated, fails: on an empty base view that is not the sentinel, `FilterItems`
returns that view, not `NoItems`. -/
theorem FilterItems_none_counterexample :
    (base 0 []).Len = 0 ∧
    FilterItems (base 0 []) (fun _ => false) = some (base 0 []) ∧
    FilterItems (base 0 []) (fun _ => false) ≠ some NoItems := by
  refine ⟨rfl, rfl, ?_⟩
  intro h
  have h2 : (some (base 0 []) : Option (Items Nat Nat)) = some NoItems := h
  cases h2

/-- C9, amended: when `p` holds on no item of `v`, `FilterItems(v, p)` is `NoItems` if `v`
is not empty, and `v` itself if `v` is empty. -/
theorem FilterItems_none (v : Items T C) (fn : T → Bool)
    (hnone : ∀ i : Nat, i ∈ List.range v.Len.toNat →
      (v.AtPtr (i : Int)).isSome = true ∧ v.holdsAt fn i = false) :
    (v.Len ≠ 0 → FilterItems v fn = some NoItems) ∧
    (v.Len = 0 → FilterItems v fn = some v) := by
  have hacc : ∀ i : Nat, i ∈ List.range v.Len.toNat → (v.AtPtr (i : Int)).isSome = true :=
    fun i hi => (hnone i hi).1
  have h3 : (List.range v.Len.toNat).filter (v.holdsAt fn) = [] := by
    rw [List.filter_eq_nil_iff]
    intro i hi
    simp [(hnone i hi).2]
  rw [FilterItems_eq v fn hacc, h3]
  constructor
  · intro h
    have : ¬ ((0 : Int) = v.Len) := fun h0 => h h0.symm
    simp [this]
  · intro h
    simp [h]

/-- Witness of C9 amended: no item of the base `[1, 3]` is even. -/
theorem FilterItems_none_witness :
    FilterItems (base 1 [1, 3]) (fun x => x % 2 == 0) = some NoItems :=
  (FilterItems_none (base 1 [1, 3]) (fun x => x % 2 == 0) (by decide)).1 (by decide)

end FilterClaims

/-! ## `MergeItems`: the early returns, and evaluations on concrete inputs -/

section MergeEasy
variable {T C : Type} [DecidableEq C] [Inhabited C]

theorem mergeLoop_all_empty :
    ∀ (items : List (Items T C)) (st : C × Bool × Bool × List (Items T C)),
      (∀ v ∈ items, v.Len = 0) → mergeLoop items st = some st := by
  intro items
  induction items with
  | nil => intro st _; rfl
  | cons v rest ih =>
    intro st h
    obtain ⟨sc, has, first, bases⟩ := st
    have hv : v.Len = 0 := h v (List.mem_cons_self _ _)
    simp only [mergeLoop, hv, if_true]
    exact ih _ (fun w hw => h w (List.mem_cons_of_mem _ hw))

/-- C5: `MergeItems` of no view is the sentinel `NoItems`, and `MergeItems` of the
one-element list `[v]` is `v` itself, for every view and every comparison. -/
theorem MergeItems_nil_singleton (less : T → T → Bool) :
    MergeItems ([] : List (Items T C)) less = some NoItems ∧
    ∀ v : Items T C, MergeItems [v] less = some v :=
  ⟨rfl, fun _ => rfl⟩

/-- C6, on the code: for a list of two or more views that are all empty, `MergeItems`
panics in `MergedItems.sort` (the slice `items.bases[:len(items.bases)-1]` of the empty
base list) instead of returning a view of length 0. -/
theorem MergeItems_all_empty_panics (items : List (Items T C)) (less : T → T → Bool)
    (h2 : 2 ≤ items.length) (hempty : ∀ v ∈ items, v.Len = 0) :
    MergeItems items less = none := by
  match items, h2, hempty with
  | a :: b :: rest, _, hempty =>
    simp only [MergeItems]
    rw [mergeLoop_all_empty (a :: b :: rest) _ hempty]
    rfl

end MergeEasy

/-- Witness of C6: merging two sentinels panics. -/
theorem MergeItems_all_empty_panics_witness :
    MergeItems [(NoItems : Items Nat Nat), NoItems] ltNat = none :=
  MergeItems_all_empty_panics [NoItems, NoItems] ltNat (by decide) (by decide)

/-- C1, on the code: a sliced merge view of length 1 merged with a base of length 1
gives a view of length 4, because flattening takes all the bases of the merge view and
ignores its window. -/
theorem MergeItems_sliced_input_length :
    MergeItems [base 1 [1, 3], base 1 [2]] ltNat
      = some (MergedItems [base 1 [1, 3], base 1 [2]] 1 [0, 2, 1] 0 3) ∧
    (MergedItems [base 1 [1, 3], base 1 [2]] 1 [0, 2, 1] 0 3).Slice 0 1
      = some (MergedItems [base 1 [1, 3], base 1 [2]] 1 [0, 2, 1] 0 1) ∧
    (MergedItems [base 1 [1, 3], base 1 [2]] 1 [0, 2, 1] 0 1).seq = [some 1] ∧
    (base 1 [5]).seq = [some 5] ∧
    MergeItems [MergedItems [base 1 [1, 3], base 1 [2]] 1 [0, 2, 1] 0 1, base 1 [5]] ltNat
      = some (MergedItems [base 1 [1, 3], base 1 [2], base 1 [5]] 1 [0, 2, 1, 3] 0 4) ∧
    (MergedItems [base 1 [1, 3], base 1 [2], base 1 [5]] 1 [0, 2, 1, 3] 0 4).Len = 4 ∧
    (MergedItems [base 1 [1, 3], base 1 [2], base 1 [5]] 1 [0, 2, 1, 3] 0 4).seq
      = [some 1, some 2, some 3, some 5] :=
  ⟨rfl, rfl, by decide, by decide, rfl, rfl, by decide⟩

/-- C2, on the code: the inputs `[1]` (a slice of a merge view built under `>`) and `[5]`
are sorted under `<`, yet the merged view is `2, 3, 1, 5`, which is not sorted: the
hidden items of the sliced merge view come back through flattening. -/
theorem MergeItems_sliced_input_unsorted :
    MergeItems [base 1 [3, 1], base 1 [2]] gtNat
      = some (MergedItems [base 1 [3, 1], base 1 [2]] 1 [0, 2, 1] 0 3) ∧
    (MergedItems [base 1 [3, 1], base 1 [2]] 1 [0, 2, 1] 0 3).Slice 2 3
      = some (MergedItems [base 1 [3, 1], base 1 [2]] 1 [0, 2, 1] 2 3) ∧
    (MergedItems [base 1 [3, 1], base 1 [2]] 1 [0, 2, 1] 2 3).seq = [some 1] ∧
    (base 1 [5]).seq = [some 5] ∧
    StrictWeakOrder ltNat ∧
    (MergedItems [base 1 [3, 1], base 1 [2]] 1 [0, 2, 1] 2 3).SortedUnder ltNat ∧
    (base 1 [5]).SortedUnder ltNat ∧
    MergeItems [MergedItems [base 1 [3, 1], base 1 [2]] 1 [0, 2, 1] 2 3, base 1 [5]] ltNat
      = some (MergedItems [base 1 [3, 1], base 1 [2], base 1 [5]] 1 [2, 0, 1, 3] 0 4) ∧
    (MergedItems [base 1 [3, 1], base 1 [2], base 1 [5]] 1 [2, 0, 1, 3] 0 4).AtPtr 1 = some 3 ∧
    (MergedItems [base 1 [3, 1], base 1 [2], base 1 [5]] 1 [2, 0, 1, 3] 0 4).AtPtr 2 = some 1 ∧
    ltNat 1 3 = true :=
  ⟨rfl, rfl, by decide, by decide, ltNat_strictWeakOrder, by decide, by decide, rfl,
    by decide, by decide, by decide⟩

/-- C10, on the code: a merge view narrowed to length 1 still answers accesses at
positions outside its window, as long as they fall inside the permutation. -/
theorem MergedItems_access_outside_window :
    MergeItems [base 1 [1, 3], base 2 [2]] ltNat
      = some (MergedItems [base 1 [1, 3], base 2 [2]] 0 [0, 2, 1] 0 3) ∧
    (MergedItems [base 1 [1, 3], base 2 [2]] 0 [0, 2, 1] 0 3).Slice 1 2
      = some (MergedItems [base 1 [1, 3], base 2 [2]] 0 [0, 2, 1] 1 2) ∧
    (MergedItems [base 1 [1, 3], base 2 [2]] 0 [0, 2, 1] 1 2).Len = 1 ∧
    (MergedItems [base 1 [1, 3], base 2 [2]] 0 [0, 2, 1] 1 2).At 1 = some 3 ∧
    (MergedItems [base 1 [1, 3], base 2 [2]] 0 [0, 2, 1] 1 2).AtPtr 1 = some 3 ∧
    (MergedItems [base 1 [1, 3], base 2 [2]] 0 [0, 2, 1] 1 2).ContainerAt 1 = some 1 ∧
    (MergedItems [base 1 [1, 3], base 2 [2]] 0 [0, 2, 1] 1 2).At (-1) = some 1 ∧
    (MergedItems [base 1 [1, 3], base 2 [2]] 0 [0, 2, 1] 1 2).AtPtr (-1) = some 1 ∧
    (MergedItems [base 1 [1, 3], base 2 [2]] 0 [0, 2, 1] 1 2).ContainerAt (-1) = some 1 :=
  ⟨rfl, rfl, rfl, by decide, by decide, by decide, by decide, by decide, by decide⟩

/-! ## A single surviving source -/

section SingleBase
variable {T C : Type}

theorem sortLoop_single (less : T → T → Bool) (s : Items T C)
    (hacc : ∀ i : Nat, i ∈ List.range s.Len.toNat → (s.AtPtr (i : Int)).isSome = true) :
    ∀ (k o : Nat) (indices : List Int), (o : Int) + k = s.Len →
      sortLoop less [s] [0] k [o] indices
        = some (indices ++ (List.range' o k).map (fun (i : Nat) => (i : Int))) := by
  intro k
  induction k with
  | zero => intro o indices _; simp [sortLoop]
  | succ k ih =>
    intro o indices h
    have hne : ¬ ((o : Int) = s.Len) := by omega
    have hmem : o ∈ List.range s.Len.toNat := by
      rw [List.mem_range]; omega
    obtain ⟨c, hc⟩ := Option.isSome_iff_exists.mp (hacc o hmem)
    have hscan : scanBases less [s] [o] 0 none = some (some (0, c)) := by
      simp [scanBases, hne, hc]
    simp only [sortLoop, hscan]
    have h1 : ([0] : List Int)[0]? = some 0 := rfl
    have h2 : ([o] : List Nat)[0]? = some o := rfl
    simp only [h1, h2, List.set_cons_zero]
    rw [ih (o + 1) _ (by push_cast; omega)]
    simp [List.range'_succ]

theorem sort_single (less : T → T → Bool) (s : Items T C) (hv : s.Accessible) :
    MergedItems.sort [s] less
      = some ((List.range s.Len.toNat).map (fun (i : Nat) => (i : Int))) := by
  obtain ⟨hlen, hacc⟩ := hv
  have ht : totalLen [s] = s.Len := by simp [totalLen]
  unfold MergedItems.sort
  rw [ht]
  have h1 : ¬ (s.Len < 0) := by omega
  simp only [h1, if_false, List.length_singleton, Nat.succ_ne_zero, startOffsetsFrom,
    List.replicate]
  rw [sortLoop_single less s hacc s.Len.toNat 0 [] (by simp [Int.toNat_of_nonneg hlen])]
  simp [List.range_eq_range']

theorem index_single (s : Items T C) (i : Int) (h0 : 0 ≤ i) (h1 : i < s.Len) :
    index [s] ((List.range s.Len.toNat).map (fun (i : Nat) => (i : Int))) 0 i = some (0, i) := by
  have hlen : ((List.range s.Len.toNat).map (fun (i : Nat) => (i : Int))).length ≠ 0 := by
    simp only [List.length_map, List.length_range]; omega
  have hget : getI ((List.range s.Len.toNat).map (fun (i : Nat) => (i : Int))) (i + 0)
      = some i := by
    unfold getI
    have : ¬ (i + 0 < 0) := by omega
    simp only [this, if_false, List.getElem?_map]
    have hi : (i + 0).toNat < s.Len.toNat := by omega
    rw [List.getElem?_range hi]
    simp only [Option.map_some']
    congr 1
    omega
  unfold index
  simp only [hlen, if_true, hget, ne_eq, not_false_eq_true]
  have : s.Len > i := h1
  simp [indexLoop, this]

end SingleBase

section SingleSurvivor
variable {T C : Type} [DecidableEq C] [Inhabited C]

theorem mergeLoop_skip_empty :
    ∀ (pre rest : List (Items T C)) (st : C × Bool × Bool × List (Items T C)),
      (∀ v ∈ pre, v.Len = 0) → mergeLoop (pre ++ rest) st = mergeLoop rest st := by
  intro pre
  induction pre with
  | nil => intro rest st _; rfl
  | cons v pre ih =>
    intro rest st h
    obtain ⟨sc, has, first, bases⟩ := st
    have hv : v.Len = 0 := h v (List.mem_cons_self _ _)
    simp only [List.cons_append, mergeLoop, hv, if_true]
    exact ih rest _ (fun w hw => h w (List.mem_cons_of_mem _ hw))

theorem MergeItems_of_two (items : List (Items T C)) (less : T → T → Bool)
    (h2 : 2 ≤ items.length) :
    MergeItems items less =
      match mergeLoop items (default, false, true, []) with
      | none => none
      | some (singleContainer, hasSingleContainer, _, bases) =>
        match MergedItems.sort bases less with
        | none => none
        | some indices =>
          some (MergedItems bases (if !hasSingleContainer then default else singleContainer)
            indices 0 (totalLen bases)) := by
  match items, h2 with
  | a :: b :: rest, _ => rfl

theorem mergeLoop_single_survivor (pre post : List (Items T C)) (s : Items T C) (c : C)
    (ok : Bool) (hpre : ∀ v ∈ pre, v.Len = 0) (hpost : ∀ v ∈ post, v.Len = 0)
    (hs : s.isMerged = false) (hne : s.Len ≠ 0) (hC : s.Container = some (c, ok)) :
    mergeLoop (pre ++ s :: post) (default, false, true, []) = some (c, ok, false, [s]) := by
  rw [mergeLoop_skip_empty pre _ _ hpre]
  have hb : appendBases ([] : List (Items T C)) s = [s] := by
    cases s <;> simp_all [Items.isMerged, appendBases]
  simp only [mergeLoop, hne, if_false, hC, if_true, hb]
  rw [mergeLoop_all_empty post _ hpost]
  cases ok <;> simp

/-- C7, as stated, fails: with one non-empty base and one empty view, `MergeItems` returns a
merge view, not the base, and its `Container()` differs from the one of the base. -/
theorem MergeItems_single_survivor_counterexample :
    (NoItems : Items Nat Nat).Len = 0 ∧
    MergeItems [base 0 [1, 2], NoItems] ltNat
      = some (MergedItems [base 0 [1, 2]] 0 [0, 1] 0 2) ∧
    MergeItems [base 0 [1, 2], NoItems] ltNat ≠ some (base 0 [1, 2]) ∧
    (MergedItems [base 0 [1, 2]] 0 [0, 1] 0 2).Container = some (0, false) ∧
    (base 0 [1, 2]).Container = some (0, true) := by
  refine ⟨rfl, rfl, ?_, rfl, rfl⟩
  intro h
  have h2 : (some (MergedItems [base 0 [1, 2]] 0 [0, 1] 0 2) : Option (Items Nat Nat))
      = some (base 0 [1, 2]) := h
  cases h2

/-- C7, amended: for a list of two or more views in which exactly one view `s` is not
empty, `s` not being a merge view, `MergeItems` returns a merge view whose only base is
`s`. That view has the length of `s`, the same item, pointer and `ContainerAt` at every
position, the same `Contiguous()` and `Subslice()`; its `Container()` is the one of `s`
when `s` reports a single tag other than the zero tag, and otherwise is
`(ContainerAt(0), true)` when the length is 1 and `(zero tag, false)` when it is not. -/
theorem MergeItems_single_survivor (pre post : List (Items T C)) (s : Items T C)
    (less : T → T → Bool) (c : C) (ok : Bool)
    (h2 : 2 ≤ (pre ++ s :: post).length)
    (hpre : ∀ v ∈ pre, v.Len = 0) (hpost : ∀ v ∈ post, v.Len = 0)
    (hs : s.isMerged = false) (hne : s.Len ≠ 0) (hacc : s.Accessible)
    (hC : s.Container = some (c, ok)) :
    ∃ r, MergeItems (pre ++ s :: post) less = some r ∧
      r = MergedItems [s] (if ok = true then c else default)
        ((List.range s.Len.toNat).map (fun (i : Nat) => (i : Int))) 0 s.Len ∧
      r.Len = s.Len ∧
      r.seq = s.seq ∧
      (∀ i : Int, 0 ≤ i → i < s.Len →
        r.At i = s.At i ∧ r.AtPtr i = s.AtPtr i ∧ r.ContainerAt i = s.ContainerAt i) ∧
      r.Contiguous = s.Contiguous ∧
      r.Subslice = s.Subslice ∧
      (ok = true → c ≠ default → r.Container = s.Container) ∧
      (¬ (ok = true ∧ c ≠ default) →
        r.Container =
          if s.Len = 1 then
            match s.ContainerAt 0 with
            | none => none
            | some t => some (t, true)
          else some (default, false)) := by
  have ht : totalLen [s] = s.Len := by simp [totalLen]
  have hsc : (if !ok then (default : C) else c) = (if ok = true then c else default) := by
    cases ok <;> simp
  have hpos : 0 < s.Len := lt_of_le_of_ne hacc.1 (Ne.symm hne)
  have hacc3 : ∀ i : Int, 0 ≤ i → i < s.Len →
      (MergedItems [s] (if ok = true then c else default)
        ((List.range s.Len.toNat).map (fun (i : Nat) => (i : Int))) 0 s.Len).At i = s.At i ∧
      (MergedItems [s] (if ok = true then c else default)
        ((List.range s.Len.toNat).map (fun (i : Nat) => (i : Int))) 0 s.Len).AtPtr i
          = s.AtPtr i ∧
      (MergedItems [s] (if ok = true then c else default)
        ((List.range s.Len.toNat).map (fun (i : Nat) => (i : Int))) 0 s.Len).ContainerAt i
          = s.ContainerAt i := by
    intro i h0 h1
    simp [Items.At, Items.AtPtr, Items.ContainerAt, index_single s i h0 h1, Items.AtList,
      Items.AtPtrList, Items.ContainerAtList]
  refine ⟨_, ?_, rfl, ?_, ?_, hacc3, rfl, rfl, ?_, ?_⟩
  · rw [MergeItems_of_two _ less h2,
      mergeLoop_single_survivor pre post s c ok hpre hpost hs hne hC]
    simp only [sort_single less s hacc, ht, hsc]
  · simp [Items.Len]
  · unfold Items.seq
    have hl : (MergedItems [s] (if ok = true then c else default)
        ((List.range s.Len.toNat).map (fun (i : Nat) => (i : Int))) 0 s.Len).Len = s.Len := by
      simp [Items.Len]
    rw [hl]
    apply List.map_congr_left
    intro i hi
    rw [List.mem_range] at hi
    exact (hacc3 (i : Int) (by omega) (by omega)).1
  · intro hok hc
    subst hok
    simp only [Items.Container, if_true, hc, ne_eq, not_false_eq_true]
    rw [hC]
  · intro hn
    have hz : (if ok = true then c else default) = (default : C) := by
      by_cases hok : ok = true
      · have : c = default := by
          by_contra hcd
          exact hn ⟨hok, hcd⟩
        simp [hok, this]
      · simp [hok]
    rw [hz]
    have hz2 := hz ▸ (hacc3 0 (le_refl 0) hpos).2.2
    simp only [Items.Container, ne_eq, not_true_eq_false, if_false, sub_zero]
    by_cases h1 : s.Len = 1
    · simp only [h1, if_true]
      rw [h1] at hz2
      rw [hz2]
    · simp only [h1, if_false]

end SingleSurvivor

/-- Witness of C7 amended: the base `[1, 2]` with tag 4 between two empty views. -/
theorem MergeItems_single_survivor_witness :
    ∃ r, MergeItems [NoItems, base 4 [1, 2], base 9 []] ltNat = some r ∧
      r = MergedItems [base 4 [1, 2]] 4 [0, 1] 0 2 ∧
      r.seq = (base 4 [1, 2]).seq ∧
      r.Container = (base 4 [1, 2]).Container := by
  obtain ⟨r, h1, h2, _, h4, _, _, _, h8, _⟩ :=
    MergeItems_single_survivor [NoItems] [base 9 []] (base 4 [1, 2]) ltNat 4 true
      (by decide) (by decide) (by decide) rfl (by decide) (by decide) rfl
  exact ⟨r, h1, h2, h4, h8 rfl (by decide)⟩

/-! ## The k-way merge of `MergedItems.sort` -/

section Scan
variable {T C : Type}

theorem StrictWeakOrder.neg_trans {less : T → T → Bool} (h : StrictWeakOrder less)
    (a b c : T) (hab : less a b = true) : less a c = true ∨ less c b = true := by
  by_contra hcon
  push_neg at hcon
  obtain ⟨h1, h2⟩ := hcon
  have h1 : less a c = false := by simpa using h1
  have h2 : less c b = false := by simpa using h2
  have h3 : less c a = false := by
    cases hca : less c a with
    | false => rfl
    | true => rw [h.trans c a b hca hab] at h2; exact absurd h2 (by simp)
  have h4 : less b c = false := by
    cases hbc : less b c with
    | false => rfl
    | true => rw [h.trans a b c hab hbc] at h1; exact absurd h1 (by simp)
  have := (h.incomp_trans a c b h1 h3 h2 h4).1
  rw [hab] at this
  exact absurd this (by simp)

theorem IsCand.unique {bases : List (Items T C)} {offsets : List Nat} {i : Nat} {c d : T}
    (h1 : IsCand bases offsets i c) (h2 : IsCand bases offsets i d) : c = d := by
  obtain ⟨b, o, hb, ho, _, hc⟩ := h1
  obtain ⟨b', o', hb', ho', _, hd⟩ := h2
  rw [hb] at hb'; cases hb'
  rw [ho] at ho'; cases ho'
  rw [hc] at hd; cases hd
  rfl

theorem scan_inv (less : T → T → Bool) (bases : List (Items T C)) (offsets : List Nat)
    (hlen : offsets.length = bases.length)
    (hacc : ∀ (i : Nat) (b : Items T C) (o : Nat), bases[i]? = some b → offsets[i]? = some o →
      (o : Int) ≠ b.Len →
      ∃ c, b.AtPtr (o : Int) = some c) :
    ∀ (d j : Nat) (acc : Option (Nat × T)), j + d = bases.length →
      AccInv less bases offsets j acc →
      ∃ r, scanBases less (bases.drop j) (offsets.drop j) j acc = some r ∧
        AccInv less bases offsets bases.length r := by
  intro d
  induction d with
  | zero =>
    intro j acc hj hinv
    have hj' : j = bases.length := by omega
    subst hj'
    refine ⟨acc, ?_, hinv⟩
    simp [scanBases]
  | succ d ih =>
    intro j acc hj hinv
    have hjb : j < bases.length := by omega
    have hjo : j < offsets.length := by omega
    rw [List.drop_eq_getElem_cons hjb, List.drop_eq_getElem_cons hjo]
    have hb : bases[j]? = some bases[j] := List.getElem?_eq_getElem hjb
    have ho : offsets[j]? = some offsets[j] := List.getElem?_eq_getElem hjo
    have hcand : ∀ c, IsCand bases offsets j c →
        (offsets[j] : Int) ≠ bases[j].Len ∧ bases[j].AtPtr (offsets[j] : Int) = some c := by
      intro c ⟨b', o', hb', ho', hne, hc⟩
      rw [hb] at hb'; cases hb'
      rw [ho] at ho'; cases ho'
      exact ⟨hne, hc⟩
    by_cases hex : (offsets[j] : Int) = bases[j].Len
    · -- exhausted base: `continue`
      simp only [scanBases, hex, if_true]
      apply ih (j + 1) acc (by omega)
      cases acc with
      | none =>
        intro i c hi hc
        by_cases hij : i = j
        · subst hij; exact (hcand c hc).1 hex
        · exact hinv i c (by omega) hc
      | some mc =>
        obtain ⟨m, c⟩ := mc
        obtain ⟨hm, hmc, hord⟩ := hinv
        refine ⟨by omega, hmc, fun hs => ⟨(hord hs).1, ?_⟩⟩
        intro i ci hmi hi hci
        by_cases hij : i = j
        · subst hij; exact absurd hex (hcand ci hci).1
        · exact (hord hs).2 i ci hmi (by omega) hci
    · obtain ⟨c, hc⟩ := hacc j _ _ hb ho hex
      have hjc : IsCand bases offsets j c := ⟨_, _, hb, ho, hex, hc⟩
      simp only [scanBases, hex, if_false, hc]
      cases acc with
      | none =>
        simp only []
        apply ih (j + 1) _ (by omega)
        refine ⟨by omega, hjc, fun _ => ⟨?_, ?_⟩⟩
        · intro i ci hi hci
          exact absurd hci (hinv i ci hi)
        · intro i ci h1 h2 _
          omega
      | some mc =>
        obtain ⟨m, mi⟩ := mc
        obtain ⟨hm, hmc, hord⟩ := hinv
        simp only []
        by_cases hl : less c mi = true
        · simp only [hl, if_true]
          apply ih (j + 1) _ (by omega)
          refine ⟨by omega, hjc, fun hs => ⟨?_, ?_⟩⟩
          · intro i ci hi hci
            rcases Nat.lt_trichotomy i m with him | him | him
            · exact hs.trans c mi ci hl ((hord hs).1 i ci him hci)
            · subst him
              rw [IsCand.unique hci hmc]; exact hl
            · have h1 := (hord hs).2 i ci him hi hci
              rcases hs.neg_trans c mi ci hl with h2 | h2
              · exact h2
              · rw [h1] at h2; exact absurd h2 (by simp)
          · intro i ci h1 h2 _
            omega
        · have hl' : less c mi = false := by simpa using hl
          simp only [hl', Bool.false_eq_true, if_false]
          apply ih (j + 1) _ (by omega)
          refine ⟨by omega, hmc, fun hs => ⟨(hord hs).1, ?_⟩⟩
          intro i ci hmi hi hci
          by_cases hij : i = j
          · subst hij
            rw [IsCand.unique hci hjc]; exact hl'
          · exact (hord hs).2 i ci hmi (by omega) hci

end Scan

section Sums
variable {T C : Type}

theorem totalLen_cons (b : Items T C) (bs : List (Items T C)) :
    totalLen (b :: bs) = b.Len + totalLen bs := by
  simp [totalLen]

theorem totalLen_nonneg (bs : List (Items T C)) (h : ∀ b ∈ bs, 0 ≤ b.Len) :
    0 ≤ totalLen bs := by
  induction bs with
  | nil => simp [totalLen]
  | cons b bs ih =>
    rw [totalLen_cons]
    have h1 := h b (List.mem_cons_self _ _)
    have h2 := ih (fun c hc => h c (List.mem_cons_of_mem _ hc))
    omega

theorem offsets_sum_le :
    ∀ (bases : List (Items T C)) (offsets : List Nat), offsets.length = bases.length →
      (∀ (j : Nat) (b : Items T C) (o : Nat), bases[j]? = some b → offsets[j]? = some o →
        (o : Int) ≤ b.Len) →
      ((offsets.sum : Nat) : Int) ≤ totalLen bases := by
  intro bases
  induction bases with
  | nil =>
    intro offsets hl _
    have : offsets = [] := List.length_eq_zero.mp hl
    subst this; simp [totalLen]
  | cons b bs ih =>
    intro offsets hl hle
    match offsets, hl with
    | o :: os, hl =>
      have h0 := hle 0 b o (by simp) (by simp)
      have h1 := ih os (by simpa using hl) (fun j b' o' hb ho => hle (j + 1) b' o' (by simpa using hb) (by simpa using ho))
      rw [totalLen_cons]
      simp only [List.sum_cons, Nat.cast_add]
      omega

theorem offsets_eq_of_sum_eq :
    ∀ (bases : List (Items T C)) (offsets : List Nat), offsets.length = bases.length →
      (∀ (j : Nat) (b : Items T C) (o : Nat), bases[j]? = some b → offsets[j]? = some o →
        (o : Int) ≤ b.Len) →
      ((offsets.sum : Nat) : Int) = totalLen bases →
      ∀ (j : Nat) (b : Items T C) (o : Nat), bases[j]? = some b → offsets[j]? = some o →
        (o : Int) = b.Len := by
  intro bases
  induction bases with
  | nil =>
    intro offsets _ _ _ j b o hb _
    simp at hb
  | cons b bs ih =>
    intro offsets hl hle hsum
    match offsets, hl with
    | o :: os, hl =>
      have hl' : os.length = bs.length := by simpa using hl
      have hle' : ∀ (j : Nat) (b' : Items T C) (o' : Nat), bs[j]? = some b' →
          os[j]? = some o' → (o' : Int) ≤ b'.Len :=
        fun j b' o' hb ho => hle (j + 1) b' o' (by simpa using hb) (by simpa using ho)
      have h0 := hle 0 b o (by simp) (by simp)
      have h1 := offsets_sum_le bs os hl' hle'
      rw [totalLen_cons] at hsum
      simp only [List.sum_cons, Nat.cast_add] at hsum
      intro j b' o' hb ho
      cases j with
      | zero =>
        simp only [List.getElem?_cons_zero, Option.some.injEq] at hb ho
        subst hb; subst ho
        omega
      | succ j =>
        exact ih os hl' hle' (by omega) j b' o' (by simpa using hb) (by simpa using ho)

theorem offsets_sum_of_all_eq :
    ∀ (bases : List (Items T C)) (offsets : List Nat), offsets.length = bases.length →
      (∀ (j : Nat) (b : Items T C) (o : Nat), bases[j]? = some b → offsets[j]? = some o →
        (o : Int) = b.Len) →
      ((offsets.sum : Nat) : Int) = totalLen bases := by
  intro bases
  induction bases with
  | nil =>
    intro offsets hl _
    have : offsets = [] := List.length_eq_zero.mp hl
    subst this; simp [totalLen]
  | cons b bs ih =>
    intro offsets hl heq
    match offsets, hl with
    | o :: os, hl =>
      have h0 := heq 0 b o (by simp) (by simp)
      have h1 := ih os (by simpa using hl) (fun j b' o' hb ho => heq (j + 1) b' o' (by simpa using hb) (by simpa using ho))
      rw [totalLen_cons]
      simp only [List.sum_cons, Nat.cast_add]
      omega

theorem sum_set_succ :
    ∀ (offsets : List Nat) (m o : Nat), offsets[m]? = some o →
      (offsets.set m (o + 1)).sum = offsets.sum + 1 := by
  intro offsets
  induction offsets with
  | nil => intro m o h; simp at h
  | cons a as ih =>
    intro m o h
    cases m with
    | zero =>
      simp only [List.getElem?_cons_zero, Option.some.injEq] at h
      subst h
      simp only [List.set_cons_zero, List.sum_cons]
      omega
    | succ m =>
      simp only [List.getElem?_cons_succ] at h
      simp only [List.set_cons_succ, List.sum_cons, ih m o h]
      omega

theorem length_startOffsetsFrom :
    ∀ (bs : List (Items T C)) (acc : Int), (startOffsetsFrom acc bs).length = bs.length := by
  intro bs
  induction bs with
  | nil => intro acc; rfl
  | cons b bs ih => intro acc; simp [startOffsetsFrom, ih]

theorem startOffsetsFrom_getElem? :
    ∀ (bs : List (Items T C)) (acc : Int) (j : Nat), j < bs.length →
      (startOffsetsFrom acc bs)[j]? = some (acc + totalLen (bs.take j)) := by
  intro bs
  induction bs with
  | nil => intro acc j h; simp at h
  | cons b bs ih =>
    intro acc j h
    cases j with
    | zero => simp [startOffsetsFrom, totalLen]
    | succ j =>
      simp only [startOffsetsFrom, List.getElem?_cons_succ, List.take_succ_cons, totalLen_cons]
      rw [ih (acc + b.Len) j (by simpa using h)]
      congr 1
      omega

theorem indexLoop_resolve :
    ∀ (bs : List (Items T C)) (i0 j : Nat) (b : Items T C) (o : Int),
      (∀ b ∈ bs, 0 ≤ b.Len) → bs[j]? = some b → 0 ≤ o → o < b.Len →
      indexLoop bs i0 (totalLen (bs.take j) + o) = Sum.inl (i0 + j, o) := by
  intro bs
  induction bs with
  | nil => intro i0 j b o _ hb; simp at hb
  | cons b0 bs ih =>
    intro i0 j b o hnn hb h0 h1
    cases j with
    | zero =>
      simp only [List.getElem?_cons_zero, Option.some.injEq] at hb
      subst hb
      have : b0.Len > o := h1
      simp [indexLoop, totalLen, this]
    | succ j =>
      simp only [List.getElem?_cons_succ] at hb
      have hnn' : ∀ b ∈ bs, 0 ≤ b.Len := fun c hc => hnn c (List.mem_cons_of_mem _ hc)
      have ht := totalLen_nonneg (bs.take j)
        (fun c hc => hnn' c (List.mem_of_mem_take hc))
      have h00 := hnn b0 (List.mem_cons_self _ _)
      have hnot : ¬ (b0.Len > b0.Len + totalLen (bs.take j) + o) := by omega
      simp only [List.take_succ_cons, totalLen_cons, indexLoop, hnot, if_false]
      have heq : b0.Len + totalLen (bs.take j) + o - b0.Len = totalLen (bs.take j) + o := by
        omega
      rw [heq, ih (i0 + 1) j b o hnn' hb h0 h1]
      congr 2
      omega

end Sums

section SortLoop
variable {T C : Type}

theorem Items.Accessible.atPtr {b : Items T C} (h : b.Accessible) (o : Nat)
    (ho : (o : Int) < b.Len) : ∃ c, b.AtPtr (o : Int) = some c := by
  apply Option.isSome_iff_exists.mp
  apply h.2 o
  rw [List.mem_range]
  omega

theorem Items.SortedUnder.not_less {less : T → T → Bool} {b : Items T C}
    (h : b.SortedUnder less) (i j : Nat) (hij : i < j) (hj : (j : Int) < b.Len) (x y : T)
    (hx : b.AtPtr (i : Int) = some x) (hy : b.AtPtr (j : Int) = some y) : less y x = false := by
  have := h j (by rw [List.mem_range]; omega) i (by rw [List.mem_range]; exact hij)
  simpa [lessAt, hx, hy] using this

theorem sort_step (less : T → T → Bool) (bases : List (Items T C)) (offsets : List Nat)
    (picks : List (Nat × Nat)) (hacc : ∀ b ∈ bases, b.Accessible)
    (hinv : SortInv less bases offsets picks)
    (hlt : (picks.length : Int) < totalLen bases) :
    ∃ m o c so, scanBases less bases offsets 0 none = some (some (m, c)) ∧
      offsets[m]? = some o ∧ (startOffsetsFrom 0 bases)[m]? = some so ∧
      so + (o : Int) = absPos bases (m, o) ∧
      SortInv less bases (offsets.set m (o + 1)) (picks ++ [(m, o)]) := by
  have hacc' : ∀ (i : Nat) (b : Items T C) (o : Nat), bases[i]? = some b →
      offsets[i]? = some o → (o : Int) ≠ b.Len → ∃ c, b.AtPtr (o : Int) = some c := by
    intro i b o hb ho hne
    have hle := hinv.hle i b o hb ho
    exact (hacc b (List.getElem?_mem hb)).atPtr o (by omega)
  obtain ⟨r, hr, hrinv⟩ := scan_inv less bases offsets hinv.hlen hacc' bases.length 0 none
    (by simp) (by intro i c hi; omega)
  simp only [List.drop_zero] at hr
  cases r with
  | none =>
    exfalso
    have hall : ∀ (j : Nat) (b : Items T C) (o : Nat), bases[j]? = some b →
        offsets[j]? = some o → (o : Int) = b.Len := by
      intro j b o hb ho
      by_contra hne
      obtain ⟨c, hc⟩ := hacc' j b o hb ho hne
      have hj : j < bases.length := (List.getElem?_eq_some_iff.mp hb).1
      exact hrinv j c hj ⟨b, o, hb, ho, hne, hc⟩
    have hsum := offsets_sum_of_all_eq bases offsets hinv.hlen hall
    rw [← hinv.hcount] at hsum
    omega
  | some mc =>
    obtain ⟨m, c⟩ := mc
    obtain ⟨hm, ⟨b, o, hb, ho, hne, hc⟩, hord⟩ := hrinv
    have hole : (o : Int) ≤ b.Len := hinv.hle m b o hb ho
    have hso := startOffsetsFrom_getElem? bases 0 m hm
    have hmo : m < offsets.length := by rw [hinv.hlen]; exact hm
    refine ⟨m, o, c, _, hr, ho, hso, ?_, ?_⟩
    · simp [absPos, hso]
    · have hget : ∀ j : Nat, (offsets.set m (o + 1))[j]?
          = if m = j then some (o + 1) else offsets[j]? := by
        intro j
        rw [List.getElem?_set]
        by_cases hmj : m = j
        · rw [if_pos hmj, if_pos hmj, if_pos hmo]
        · rw [if_neg hmj, if_neg hmj]
      constructor
      · simp [hinv.hlen]
      · intro j b' o' hb' ho'
        rw [hget] at ho'
        by_cases hmj : m = j
        · subst hmj
          simp only [if_true, Option.some.injEq] at ho'
          rw [hb] at hb'; cases hb'
          subst ho'
          push_cast
          omega
        · simp only [hmj, if_false] at ho'
          exact hinv.hle j b' o' hb' ho'
      · intro j o'
        rw [List.mem_append, List.mem_singleton, hinv.hmem, hget]
        by_cases hmj : m = j
        · subst hmj
          simp only [if_true, Option.some.injEq, ho, Prod.mk.injEq, true_and]
          constructor
          · rintro (⟨oj, h1, h2⟩ | h)
            · exact ⟨o + 1, rfl, by omega⟩
            · exact ⟨o + 1, rfl, by omega⟩
          · rintro ⟨oj, h1, h2⟩
            by_cases h3 : o' = o
            · right; exact h3
            · left; exact ⟨o, rfl, by omega⟩
        · simp only [hmj, if_false, Prod.mk.injEq]
          constructor
          · rintro (h | ⟨h, _⟩)
            · exact h
            · exact absurd h.symm hmj
          · intro h; left; exact h
      · rw [List.length_append, List.length_singleton, hinv.hcount, sum_set_succ offsets m o ho]
      · rw [List.pairwise_append]
        refine ⟨hinv.hord, List.pairwise_singleton _ _, ?_⟩
        intro p hp q hq
        rw [List.mem_singleton] at hq
        subst hq
        obtain ⟨oj, hoj, hlt'⟩ := (hinv.hmem p.1 p.2).mp hp
        constructor
        · intro h1
          simp only at h1
          rw [h1, ho] at hoj
          cases hoj
          exact hlt'
        · intro hS hlt2 x y hx hy hxy
          simp only at hlt2
          have hx' : b.AtPtr (o : Int) = some x := by
            simpa [itemAt, hb] using hx
          obtain ⟨oj2, hoj2, hlt3⟩ := hinv.hstab hS p hp m o b x y hlt2 hb (by omega) hx' hy
            hxy.1 hxy.2
          rw [ho] at hoj2
          cases hoj2
          omega
      · intro hS p hp a1 o1 b1 x y ha1 hb1 ho1 hx hy hxy hyx
        rw [hget]
        rw [List.mem_append, List.mem_singleton] at hp
        rcases hp with hp | hp
        · obtain ⟨oj, hoj, hlt3⟩ := hinv.hstab hS p hp a1 o1 b1 x y ha1 hb1 ho1 hx hy hxy hyx
          by_cases hmj : m = a1
          · subst hmj
            rw [ho] at hoj; cases hoj
            exact ⟨o + 1, by simp, by omega⟩
          · exact ⟨oj, by simp [hmj, hoj], hlt3⟩
        · subst hp
          simp only at ha1
          have hmj : ¬ (m = a1) := by omega
          simp only [hmj, if_false]
          have ha1o : a1 < offsets.length := by rw [hinv.hlen]; omega
          refine ⟨offsets[a1], List.getElem?_eq_getElem ha1o, ?_⟩
          by_contra hge
          have hge : offsets[a1] ≤ o1 := by omega
          have hoa : offsets[a1]? = some offsets[a1] := List.getElem?_eq_getElem ha1o
          have hne1 : ((offsets[a1] : Nat) : Int) ≠ b1.Len := by omega
          obtain ⟨ca, hca⟩ := hacc' a1 b1 _ hb1 hoa hne1
          have hcand : IsCand bases offsets a1 ca := ⟨b1, _, hb1, hoa, hne1, hca⟩
          have hlt4 : less c ca = true := (hord hS.1).1 a1 ca ha1 hcand
          have hyc : y = c := by
            have : b.AtPtr (o : Int) = some y := by simpa [itemAt, hb] using hy
            rw [hc] at this; cases this; rfl
          subst hyc
          rcases Nat.lt_or_eq_of_le hge with hlt5 | heq5
          · have hs := (hS.2 b1 (List.getElem?_mem hb1)).not_less _ _ hlt5 ho1 ca x hca hx
            rcases hS.1.neg_trans y ca x hlt4 with h | h
            · rw [hyx] at h; exact absurd h (by simp)
            · rw [hs] at h; exact absurd h (by simp)
          · rw [heq5, hx] at hca
            cases hca
            rw [hyx] at hlt4; exact absurd hlt4 (by simp)

end SortLoop

section SortSpec
variable {T C : Type}

theorem sortLoop_inv (less : T → T → Bool) (bases : List (Items T C))
    (hacc : ∀ b ∈ bases, b.Accessible) (hnn : 0 ≤ totalLen bases) :
    ∀ (fuel : Nat) (offsets : List Nat) (picks : List (Nat × Nat)),
      SortInv less bases offsets picks → picks.length + fuel = (totalLen bases).toNat →
      ∃ offsets1 picks1,
        sortLoop less bases (startOffsetsFrom 0 bases) fuel offsets (picks.map (absPos bases))
          = some (picks1.map (absPos bases)) ∧
        SortInv less bases offsets1 picks1 ∧ picks1.length = (totalLen bases).toNat := by
  intro fuel
  induction fuel with
  | zero =>
    intro offsets picks hinv hlen
    exact ⟨offsets, picks, rfl, hinv, by omega⟩
  | succ fuel ih =>
    intro offsets picks hinv hlen
    obtain ⟨m, o, c, so, hscan, ho, hso, habs, hinv1⟩ :=
      sort_step less bases offsets picks hacc hinv (by omega)
    obtain ⟨offsets1, picks1, hloop, hinv2, hlen2⟩ :=
      ih (offsets.set m (o + 1)) (picks ++ [(m, o)]) hinv1
        (by rw [List.length_append, List.length_singleton]; omega)
    refine ⟨offsets1, picks1, ?_, hinv2, hlen2⟩
    simp only [sortLoop, hscan, hso, ho]
    rw [← hloop, List.map_append, List.map_singleton, habs]

theorem sortInv_init (less : T → T → Bool) (bases : List (Items T C))
    (hacc : ∀ b ∈ bases, b.Accessible) :
    SortInv less bases (List.replicate bases.length 0) [] := by
  have hrep : ∀ (j o : Nat), (List.replicate bases.length 0)[j]? = some o → o = 0 := by
    intro j o h
    rw [List.getElem?_replicate] at h
    split at h
    · cases h; rfl
    · cases h
  constructor
  · simp
  · intro j b o hb ho
    rw [hrep j o ho]
    exact (hacc b (List.getElem?_mem hb)).1
  · intro j o
    constructor
    · intro h; cases h
    · rintro ⟨oj, h1, h2⟩
      rw [hrep j oj h1] at h2
      omega
  · simp
  · exact List.Pairwise.nil
  · intro _ p hp
    cases hp

theorem sort_spec (less : T → T → Bool) (bases : List (Items T C)) (hne : bases ≠ [])
    (hacc : ∀ b ∈ bases, b.Accessible) :
    ∃ offsets picks,
      MergedItems.sort bases less = some (picks.map (absPos bases)) ∧
      SortInv less bases offsets picks ∧ picks.length = (totalLen bases).toNat := by
  have hnn : 0 ≤ totalLen bases := totalLen_nonneg bases (fun b hb => (hacc b hb).1)
  have h1 : ¬ (totalLen bases < 0) := by omega
  have h2 : ¬ (bases.length = 0) := fun h => hne (List.length_eq_zero.mp h)
  obtain ⟨offsets1, picks1, hloop, hinv, hlen⟩ :=
    sortLoop_inv less bases hacc hnn (totalLen bases).toNat (List.replicate bases.length 0) []
      (sortInv_init less bases hacc) (by simp)
  refine ⟨offsets1, picks1, ?_, hinv, hlen⟩
  unfold MergedItems.sort
  rw [if_neg h1, if_neg h2]
  exact hloop

theorem sortInv_final_mem {less : T → T → Bool} {bases : List (Items T C)}
    {offsets : List Nat} {picks : List (Nat × Nat)} (hinv : SortInv less bases offsets picks)
    (hnn : 0 ≤ totalLen bases) (hlen : picks.length = (totalLen bases).toNat) (j o : Nat) :
    (j, o) ∈ picks ↔ ∃ b, bases[j]? = some b ∧ (o : Int) < b.Len := by
  have hsum : ((offsets.sum : Nat) : Int) = totalLen bases := by
    rw [← hinv.hcount, hlen]; exact Int.toNat_of_nonneg hnn
  have heq := offsets_eq_of_sum_eq bases offsets hinv.hlen hinv.hle hsum
  rw [hinv.hmem]
  constructor
  · rintro ⟨oj, h1, h2⟩
    have hj : j < bases.length := by
      rw [← hinv.hlen]; exact (List.getElem?_eq_some_iff.mp h1).1
    refine ⟨bases[j], List.getElem?_eq_getElem hj, ?_⟩
    have := heq j bases[j] oj (List.getElem?_eq_getElem hj) h1
    omega
  · rintro ⟨b, hb, ho⟩
    have hj : j < offsets.length := by
      rw [hinv.hlen]; exact (List.getElem?_eq_some_iff.mp hb).1
    refine ⟨offsets[j], List.getElem?_eq_getElem hj, ?_⟩
    have := heq j b offsets[j] hb (List.getElem?_eq_getElem hj)
    omega

theorem index_of_pick (bases : List (Items T C)) (picks : List (Nat × Nat))
    (hnn : ∀ b ∈ bases, 0 ≤ b.Len)
    (hvalid : ∀ j o, (j, o) ∈ picks → ∃ b, bases[j]? = some b ∧ (o : Int) < b.Len)
    (i : Nat) (p : Nat × Nat) (hp : picks[i]? = some p) :
    index bases (picks.map (absPos bases)) 0 (i : Int) = some (p.1, (p.2 : Int)) := by
  have hi : i < picks.length := (List.getElem?_eq_some_iff.mp hp).1
  have hlen : (picks.map (absPos bases)).length ≠ 0 := by
    rw [List.length_map]; omega
  obtain ⟨b, hb, ho⟩ := hvalid p.1 p.2 (List.getElem?_mem hp)
  have hj : p.1 < bases.length := (List.getElem?_eq_some_iff.mp hb).1
  have habs : absPos bases p = totalLen (bases.take p.1) + (p.2 : Int) := by
    simp [absPos, startOffsetsFrom_getElem? bases 0 p.1 hj]
  have hget : getI (picks.map (absPos bases)) ((i : Int) + 0)
      = some (totalLen (bases.take p.1) + (p.2 : Int)) := by
    rw [Int.add_zero, getI_natCast, List.getElem?_map, hp, Option.map_some', habs]
  unfold index
  simp only [hlen, ne_eq, not_false_eq_true, if_true, hget]
  rw [indexLoop_resolve bases 0 p.1 b (p.2 : Int) hnn hb (by omega) ho]
  simp

end SortSpec

section FlattenHelpers
variable {T C : Type}

theorem appendBases_eq (bases : List (Items T C)) (ss : Items T C) :
    appendBases bases ss = bases ++ appendBases [] ss := by
  cases ss <;> simp [appendBases]

theorem AtPtrList_getElem? :
    ∀ (bs : List (Items T C)) (a : Nat) (b : Items T C) (o : Int), bs[a]? = some b →
      AtPtrList bs a o = b.AtPtr o := by
  intro bs
  induction bs with
  | nil => intro a b o h; simp at h
  | cons b0 bs ih =>
    intro a b o h
    cases a with
    | zero =>
      simp only [List.getElem?_cons_zero, Option.some.injEq] at h
      subst h; rfl
    | succ a =>
      simp only [List.getElem?_cons_succ] at h
      simpa [Items.AtPtrList] using ih a b o h

end FlattenHelpers

/-! ## Stability of `MergeItems` -/

section Stability
variable {T C : Type} [DecidableEq C] [Inhabited C]

theorem mergeLoop_bases :
    ∀ (items : List (Items T C)) (st : C × Bool × Bool × List (Items T C)),
      (∀ v ∈ items, v.Len ≠ 0 → (v.Container).isSome = true) →
      ∃ sc has first,
        mergeLoop items st = some (sc, has, first, st.2.2.2 ++ flattenBases items) := by
  intro items
  induction items with
  | nil =>
    intro st _
    obtain ⟨sc, has, first, bases⟩ := st
    exact ⟨sc, has, first, by simp [mergeLoop, flattenBases]⟩
  | cons v rest ih =>
    intro st h
    obtain ⟨sc, has, first, bases⟩ := st
    have hrest : ∀ w ∈ rest, w.Len ≠ 0 → (w.Container).isSome = true :=
      fun w hw => h w (List.mem_cons_of_mem _ hw)
    by_cases hv : v.Len = 0
    · obtain ⟨sc1, has1, first1, h1⟩ := ih (sc, has, first, bases) hrest
      exact ⟨sc1, has1, first1, by simp only [mergeLoop, hv, if_true, flattenBases]; exact h1⟩
    · obtain ⟨⟨c, ok⟩, hc⟩ := Option.isSome_iff_exists.mp (h v (List.mem_cons_self _ _) hv)
      obtain ⟨sc1, has1, first1, h1⟩ :=
        ih (if first then c else sc,
            if !ok || decide (c ≠ if first then c else sc) then false
              else (if first then ok else has),
            false, appendBases bases v) hrest
      refine ⟨sc1, has1, first1, ?_⟩
      simp only [mergeLoop, hv, if_false, hc, flattenBases]
      rw [h1, appendBases_eq bases v, List.append_assoc]

/-- C3, amended: `MergeItems` is stable with respect to the flattened base list (the
non-empty inputs in order, a merge-view input replaced by its bases). When every base
is an accessible view sorted under the strict weak order `less`, the result is a merge
view over these bases in which every item of every base occurs, and an item `x` of base
`a1` at position `o1` occurs before an equivalent item `y` of base `a2` at position `o2`
whenever `a1 < a2`, or `a1 = a2` and `o1 < o2`. -/
theorem MergeItems_stable (items : List (Items T C)) (less : T → T → Bool)
    (h2 : 2 ≤ items.length) (hswo : StrictWeakOrder less)
    (hC : ∀ v ∈ items, v.Len ≠ 0 → (v.Container).isSome = true)
    (hne : flattenBases items ≠ [])
    (hacc : ∀ b ∈ flattenBases items, b.Accessible)
    (hsorted : ∀ b ∈ flattenBases items, b.SortedUnder less) :
    ∃ sc indices,
      MergeItems items less
        = some (MergedItems (flattenBases items) sc indices 0 (totalLen (flattenBases items))) ∧
      (∀ (a o : Nat) (b : Items T C), (flattenBases items)[a]? = some b → (o : Int) < b.Len →
        ∃ i : Nat, (i : Int) < totalLen (flattenBases items) ∧
          index (flattenBases items) indices 0 (i : Int) = some (a, (o : Int)) ∧
          (MergedItems (flattenBases items) sc indices 0 (totalLen (flattenBases items))).AtPtr
            (i : Int) = b.AtPtr (o : Int)) ∧
      (∀ (i j a1 o1 a2 o2 : Nat) (b1 b2 : Items T C) (x y : T),
        (i : Int) < totalLen (flattenBases items) → (j : Int) < totalLen (flattenBases items) →
        index (flattenBases items) indices 0 (i : Int) = some (a1, (o1 : Int)) →
        index (flattenBases items) indices 0 (j : Int) = some (a2, (o2 : Int)) →
        (flattenBases items)[a1]? = some b1 → (flattenBases items)[a2]? = some b2 →
        b1.AtPtr (o1 : Int) = some x → b2.AtPtr (o2 : Int) = some y →
        less x y = false → less y x = false →
        (a1 < a2 ∨ (a1 = a2 ∧ o1 < o2)) → i < j) := by
  have hnn : ∀ b ∈ flattenBases items, 0 ≤ b.Len := fun b hb => (hacc b hb).1
  have hnn' : 0 ≤ totalLen (flattenBases items) := totalLen_nonneg _ hnn
  obtain ⟨sc, has, first, hloop⟩ := mergeLoop_bases items (default, false, true, []) hC
  simp only [List.nil_append] at hloop
  obtain ⟨offsets, picks, hsort, hinv, hlen⟩ := sort_spec less (flattenBases items) hne hacc
  have hmem := sortInv_final_mem hinv hnn' hlen
  have hidx := index_of_pick (flattenBases items) picks hnn (fun j o h => (hmem j o).mp h)
  refine ⟨if !has then default else sc, picks.map (absPos (flattenBases items)), ?_, ?_, ?_⟩
  · rw [MergeItems_of_two items less h2, hloop]
    simp only [hsort]
  · intro a o b hb ho
    obtain ⟨i, hi⟩ := List.mem_iff_getElem?.mp ((hmem a o).mpr ⟨b, hb, ho⟩)
    have hil : i < picks.length := (List.getElem?_eq_some_iff.mp hi).1
    have h3 := hidx i (a, o) hi
    refine ⟨i, by omega, h3, ?_⟩
    simp only [Items.AtPtr, h3]
    exact AtPtrList_getElem? _ a b _ hb
  · intro i j a1 o1 a2 o2 b1 b2 x y hi hj hxi hxj hb1 hb2 hx hy hxy hyx hlt
    have hil : i < picks.length := by omega
    have hjl : j < picks.length := by omega
    have hpi : picks[i] = (a1, o1) := by
      have h3 := hidx i picks[i] (List.getElem?_eq_getElem hil)
      rw [hxi] at h3
      simp only [Option.some.injEq, Prod.mk.injEq, Nat.cast_inj] at h3
      exact Prod.ext h3.1.symm h3.2.symm
    have hpj : picks[j] = (a2, o2) := by
      have h3 := hidx j picks[j] (List.getElem?_eq_getElem hjl)
      rw [hxj] at h3
      simp only [Option.some.injEq, Prod.mk.injEq, Nat.cast_inj] at h3
      exact Prod.ext h3.1.symm h3.2.symm
    rcases Nat.lt_trichotomy i j with h | h | h
    · exact h
    · exfalso
      subst h
      rw [hpi] at hpj
      simp only [Prod.mk.injEq] at hpj
      omega
    · exfalso
      have hpb := List.pairwise_iff_getElem.mp hinv.hord j i hjl hil h
      rw [hpi, hpj] at hpb
      rcases hlt with hlt | ⟨heq, hlt⟩
      · exact hpb.2 ⟨hswo, hsorted⟩ hlt x y (by simp [itemAt, hb1, hx])
          (by simp [itemAt, hb2, hy]) ⟨hxy, hyx⟩
      · have := hpb.1 heq.symm
        simp only at this
        omega

end Stability

/-- Witness of C3 amended: the bases `[1, 2]` and `[1, 3]` merged under `<`. -/
theorem MergeItems_stable_witness :
    ∃ sc indices,
      MergeItems [base 1 [1, 2], base 2 [1, 3]] ltNat
        = some (MergedItems [base 1 [1, 2], base 2 [1, 3]] sc indices 0 4) ∧
      ∀ (i j : Nat), (i : Int) < 4 → (j : Int) < 4 →
        index [base 1 [1, 2], base 2 [1, 3]] indices 0 (i : Int) = some (0, 0) →
        index [base 1 [1, 2], base 2 [1, 3]] indices 0 (j : Int) = some (1, 0) → i < j := by
  obtain ⟨sc, indices, h1, _, h3⟩ :=
    MergeItems_stable [base 1 [1, 2], base 2 [1, 3]] ltNat (by decide) ltNat_strictWeakOrder
      (by decide) (by simp [flattenBases, appendBases, base, Items.Len]) (by decide) (by decide)
  refine ⟨sc, indices, h1, ?_⟩
  intro i j hi hj hxi hxj
  exact h3 i j 0 0 1 0 (base 1 [1, 2]) (base 2 [1, 3]) 1 1 hi hj hxi hxj rfl rfl rfl rfl
    rfl rfl (Or.inl (by decide))

/-- C3, as stated, fails: the merge view `1, 2` (built under `<` from the bases `[2]` and
`[1]`) and the base `[9]` are sorted under the comparison of the tens digit, for which
all three items are equivalent; item `1` precedes item `2` in the first input, yet the
merged view is `2, 1, 9`. -/
theorem MergeItems_stable_counterexample :
    StrictWeakOrder tensLt ∧
    MergeItems [base 1 [2], base 1 [1]] ltNat
      = some (MergedItems [base 1 [2], base 1 [1]] 1 [1, 0] 0 2) ∧
    (MergedItems [base 1 [2], base 1 [1]] 1 [1, 0] 0 2).AtPtr 0 = some 1 ∧
    (MergedItems [base 1 [2], base 1 [1]] 1 [1, 0] 0 2).AtPtr 1 = some 2 ∧
    (MergedItems [base 1 [2], base 1 [1]] 1 [1, 0] 0 2).SortedUnder tensLt ∧
    (base 1 [9]).SortedUnder tensLt ∧
    tensLt 1 2 = false ∧ tensLt 2 1 = false ∧
    MergeItems [MergedItems [base 1 [2], base 1 [1]] 1 [1, 0] 0 2, base 1 [9]] tensLt
      = some (MergedItems [base 1 [2], base 1 [1], base 1 [9]] 1 [0, 1, 2] 0 3) ∧
    (MergedItems [base 1 [2], base 1 [1], base 1 [9]] 1 [0, 1, 2] 0 3).AtPtr 0 = some 2 ∧
    (MergedItems [base 1 [2], base 1 [1], base 1 [9]] 1 [0, 1, 2] 0 3).AtPtr 1 = some 1 ∧
    (MergedItems [base 1 [2], base 1 [1], base 1 [9]] 1 [0, 1, 2] 0 3).AtPtr 2 = some 9 :=
  ⟨tensLt_strictWeakOrder, rfl, by decide, by decide, by decide, by decide, by decide,
    by decide, rfl, by decide, by decide, by decide⟩

/-! ## `Slice` -/

section SliceClaims
variable {T C : Type}

/-- C19: the sentinel `NoItems` has length 0, `Slice(s, e)` returns the sentinel exactly
when `s = 0` and `e = 0` and panics for every other pair of bounds, and `At`, `AtPtr`
and `ContainerAt` panic at every index. -/
theorem NoItems_contract :
    (NoItems : Items T C).Len = 0 ∧
    (∀ s e : Int, (s = 0 ∧ e = 0 → (NoItems : Items T C).Slice s e = some NoItems) ∧
      (¬ (s = 0 ∧ e = 0) → (NoItems : Items T C).Slice s e = none)) ∧
    (∀ i : Int, (NoItems : Items T C).At i = none ∧ (NoItems : Items T C).AtPtr i = none ∧
      (NoItems : Items T C).ContainerAt i = none) := by
  refine ⟨rfl, ?_, fun _ => ⟨rfl, rfl, rfl⟩⟩
  intro s e
  constructor
  · intro h; simp [Items.Slice, h]
  · intro h; simp [Items.Slice, h]

/-- C11, on the code: `MergedItems.Slice` never panics; for any bounds, also with
`s < 0`, `e > Len()` or `s > e`, it returns the merge view with the window
`[start + s, start + s + (e - s))`, of length `e - s`. -/
theorem MergedItems_Slice_never_panics (bases : List (Items T C)) (sc : C)
    (indices : List Int) (start stop s e : Int) :
    (MergedItems bases sc indices start stop).Slice s e
      = some (MergedItems bases sc indices (start + s) (start + s + (e - s))) ∧
    (MergedItems bases sc indices (start + s) (start + s + (e - s))).Len = e - s := by
  refine ⟨rfl, ?_⟩
  simp [Items.Len]

theorem GoSlice.slice_valid {α : Type} (g : GoSlice α) (s e : Int) (h0 : 0 ≤ s) (h1 : s ≤ e)
    (h2 : e ≤ g.cap) :
    g.slice s e = some ⟨((g.elems ++ g.spare).drop s.toNat).take (e - s).toNat,
      (g.elems ++ g.spare).drop e.toNat⟩ := by
  unfold GoSlice.slice
  rw [if_pos ⟨h0, h1, h2⟩]

theorem GoSlice.slice_length {α : Type} (g : GoSlice α) (s e : Int) (h0 : 0 ≤ s) (h1 : s ≤ e)
    (h2 : e ≤ g.cap) :
    ((((g.elems ++ g.spare).drop s.toNat).take (e - s).toNat).length : Int) = e - s := by
  unfold GoSlice.cap at h2
  rw [List.length_take, List.length_drop, List.length_append]
  omega

theorem GoSlice.slice_getI {α : Type} (g : GoSlice α) (s e i : Int) (h0 : 0 ≤ s)
    (h2 : e ≤ g.elems.length) (hi0 : 0 ≤ i) (hi1 : i < e - s) :
    getI (((g.elems ++ g.spare).drop s.toNat).take (e - s).toNat) i = getI g.elems (s + i) := by
  unfold getI
  have h3 : ¬ (i < 0) := by omega
  have h4 : ¬ (s + i < 0) := by omega
  rw [if_neg h3, if_neg h4]
  rw [List.getElem?_take_of_lt (by omega), List.getElem?_drop,
    List.getElem?_append_left (by omega)]
  congr 1
  omega

/-- C12: for valid bounds `0 <= s <= e <= v.Len()`, the view `v.Slice(s, e)` exists, has
length `e - s`, and has the item and the container of `v` at position `s + i` at each
position `0 <= i < e - s`, for every kind of view. -/
theorem Slice_window (v : Items T C) (s e : Int) (h0 : 0 ≤ s) (h1 : s ≤ e) (h2 : e ≤ v.Len) :
    ∃ w, v.Slice s e = some w ∧ w.Len = e - s ∧
      ∀ i : Int, 0 ≤ i → i < e - s →
        w.At i = v.At (s + i) ∧ w.ContainerAt i = v.ContainerAt (s + i) := by
  cases v with
  | SimpleItems items container contiguous subslice =>
    have hcap : e ≤ items.cap := by
      simp only [Items.Len] at h2; unfold GoSlice.cap; omega
    refine ⟨_, by simp only [Items.Slice, GoSlice.slice_valid items s e h0 h1 hcap]; rfl, ?_, ?_⟩
    · simpa [Items.Len] using GoSlice.slice_length items s e h0 h1 hcap
    · intro i hi0 hi1
      exact ⟨by simpa [Items.At] using GoSlice.slice_getI items s e i h0 h2 hi0 hi1, rfl⟩
  | MergedItems bases sc indices start stop =>
    refine ⟨_, rfl, by simp [Items.Len], ?_⟩
    intro i _ _
    have hidx : index bases indices (start + s) i = index bases indices start (s + i) := by
      unfold index
      have : i + (start + s) = s + i + start := by omega
      rw [this]
    simp only [Items.At, Items.ContainerAt, hidx, and_self]
  | NoItems =>
    simp only [Items.Len] at h2
    have hs : s = 0 := by omega
    have he : e = 0 := by omega
    subst hs; subst he
    refine ⟨NoItems, rfl, rfl, ?_⟩
    intro i hi0 hi1
    omega
  | ItemsSubset Base Subset =>
    have hcap : e ≤ Subset.cap := by
      simp only [Items.Len] at h2; unfold GoSlice.cap; omega
    refine ⟨_, by simp only [Items.Slice, GoSlice.slice_valid Subset s e h0 h1 hcap]; rfl, ?_, ?_⟩
    · simpa [Items.Len] using GoSlice.slice_length Subset s e h0 h1 hcap
    · intro i hi0 hi1
      simp only [Items.At, Items.ContainerAt, GoSlice.slice_getI Subset s e i h0 h2 hi0 hi1,
        and_self]
  | SortedItems Base Order =>
    have hcap : e ≤ Order.cap := by
      simp only [Items.Len] at h2; unfold GoSlice.cap; omega
    refine ⟨_, by simp only [Items.Slice, GoSlice.slice_valid Order s e h0 h1 hcap]; rfl, ?_, ?_⟩
    · simpa [Items.Len] using GoSlice.slice_length Order s e h0 h1 hcap
    · intro i hi0 hi1
      simp only [Items.At, Items.ContainerAt, GoSlice.slice_getI Order s e i h0 h2 hi0 hi1,
        and_self]

end SliceClaims

section SliceComposition
variable {T C : Type}

theorem GoSlice.slice_slice {α : Type} (g : GoSlice α) (a b c : Int) (h0 : 0 ≤ a)
    (h1 : a ≤ b) (h2 : b ≤ c) (h3 : c ≤ g.cap) :
    ∃ t, g.slice a c = some t ∧ t.slice 0 (b - a) = g.slice a b := by
  have hfull : ((g.elems ++ g.spare).drop a.toNat).take (c - a).toNat
      ++ (g.elems ++ g.spare).drop c.toNat = (g.elems ++ g.spare).drop a.toNat := by
    have : (g.elems ++ g.spare).drop c.toNat
        = ((g.elems ++ g.spare).drop a.toNat).drop (c - a).toNat := by
      rw [List.drop_drop]
      congr 1
      omega
    rw [this, List.take_append_drop]
  refine ⟨_, GoSlice.slice_valid g a c h0 (by omega) h3, ?_⟩
  have hcap : b - a ≤ (GoSlice.mk (((g.elems ++ g.spare).drop a.toNat).take (c - a).toNat)
      ((g.elems ++ g.spare).drop c.toNat)).cap := by
    unfold GoSlice.cap at *
    simp only [List.length_take, List.length_drop, List.length_append] at *
    omega
  rw [GoSlice.slice_valid _ 0 (b - a) (le_refl 0) (by omega) hcap,
    GoSlice.slice_valid g a b h0 h1 (by omega)]
  simp only [hfull, Int.toNat_zero, List.drop_zero, Int.sub_zero, List.drop_drop]
  congr 3
  omega

/-- C13: for `0 <= a <= b <= c <= v.Len()`, `v.Slice(a, c).Slice(0, b - a)` and
`v.Slice(a, b)` both exist and are the same view, of length `b - a`; hence they have the
same item at every position. This holds for every kind of view. -/
theorem Slice_composition (v : Items T C) (a b c : Int) (h0 : 0 ≤ a) (h1 : a ≤ b)
    (h2 : b ≤ c) (h3 : c ≤ v.Len) :
    ∃ w1 w, v.Slice a c = some w1 ∧ w1.Slice 0 (b - a) = some w ∧ v.Slice a b = some w ∧
      w.Len = b - a := by
  cases v with
  | SimpleItems items container contiguous subslice =>
    have hcap : c ≤ items.cap := by
      simp only [Items.Len] at h3; unfold GoSlice.cap; omega
    obtain ⟨t, ht, hts⟩ := GoSlice.slice_slice items a b c h0 h1 h2 hcap
    have hab := GoSlice.slice_valid items a b h0 h1 (by omega)
    refine ⟨SimpleItems t container contiguous subslice,
      SimpleItems ⟨((items.elems ++ items.spare).drop a.toNat).take (b - a).toNat,
        (items.elems ++ items.spare).drop b.toNat⟩ container contiguous subslice,
      ?_, ?_, ?_, ?_⟩
    · simp only [Items.Slice, ht]
    · simp only [Items.Slice, hts, hab]
    · simp only [Items.Slice, hab]
    · simpa [Items.Len] using GoSlice.slice_length items a b h0 h1 (by omega)
  | MergedItems bases sc indices start stop =>
    refine ⟨_, MergedItems bases sc indices (start + a) (start + a + (b - a)), rfl, ?_, rfl, ?_⟩
    · simp only [Items.Slice]
      congr 2
      · omega
      · omega
    · simp [Items.Len]
  | NoItems =>
    simp only [Items.Len] at h3
    have ha : a = 0 := by omega
    have hb : b = 0 := by omega
    have hc : c = 0 := by omega
    subst ha; subst hb; subst hc
    exact ⟨NoItems, NoItems, rfl, rfl, rfl, rfl⟩
  | ItemsSubset Base Subset =>
    have hcap : c ≤ Subset.cap := by
      simp only [Items.Len] at h3; unfold GoSlice.cap; omega
    obtain ⟨t, ht, hts⟩ := GoSlice.slice_slice Subset a b c h0 h1 h2 hcap
    have hab := GoSlice.slice_valid Subset a b h0 h1 (by omega)
    refine ⟨ItemsSubset Base t,
      ItemsSubset Base ⟨((Subset.elems ++ Subset.spare).drop a.toNat).take (b - a).toNat,
        (Subset.elems ++ Subset.spare).drop b.toNat⟩,
      ?_, ?_, ?_, ?_⟩
    · simp only [Items.Slice, ht]
    · simp only [Items.Slice, hts, hab]
    · simp only [Items.Slice, hab]
    · simpa [Items.Len] using GoSlice.slice_length Subset a b h0 h1 (by omega)
  | SortedItems Base Order =>
    have hcap : c ≤ Order.cap := by
      simp only [Items.Len] at h3; unfold GoSlice.cap; omega
    obtain ⟨t, ht, hts⟩ := GoSlice.slice_slice Order a b c h0 h1 h2 hcap
    have hab := GoSlice.slice_valid Order a b h0 h1 (by omega)
    refine ⟨SortedItems Base t,
      SortedItems Base ⟨((Order.elems ++ Order.spare).drop a.toNat).take (b - a).toNat,
        (Order.elems ++ Order.spare).drop b.toNat⟩,
      ?_, ?_, ?_, ?_⟩
    · simp only [Items.Slice, ht]
    · simp only [Items.Slice, hts, hab]
    · simp only [Items.Slice, hab]
    · simpa [Items.Len] using GoSlice.slice_length Order a b h0 h1 (by omega)

end SliceComposition

/-- Witness of C12: the window `[1, 3)` of the merge of `[1, 3]` and `[2, 4]`. -/
theorem Slice_window_witness :
    ∃ w, (MergedItems [base 1 [1, 3], base 2 [2, 4]] 0 [0, 2, 1, 3] 0 4).Slice 1 3 = some w ∧
      w.Len = 3 - 1 ∧
      ∀ i : Int, 0 ≤ i → i < 3 - 1 →
        w.At i = (MergedItems [base 1 [1, 3], base 2 [2, 4]] 0 [0, 2, 1, 3] 0 4).At (1 + i) ∧
        w.ContainerAt i
          = (MergedItems [base 1 [1, 3], base 2 [2, 4]] 0 [0, 2, 1, 3] 0 4).ContainerAt (1 + i) :=
  Slice_window (MergedItems [base 1 [1, 3], base 2 [2, 4]] 0 [0, 2, 1, 3] 0 4) 1 3
    (by decide) (by decide) (by decide)

/-- Witness of C13: the bounds `1 <= 2 <= 3` on the base `[5, 6, 7, 8]`. -/
theorem Slice_composition_witness :
    ∃ w1 w, (base 1 [5, 6, 7, 8]).Slice 1 3 = some w1 ∧ w1.Slice 0 (2 - 1) = some w ∧
      (base 1 [5, 6, 7, 8]).Slice 1 2 = some w ∧ w.Len = 2 - 1 :=
  Slice_composition (base 1 [5, 6, 7, 8]) 1 2 3 (by decide) (by decide) (by decide) (by decide)

/-! ## Sort views: `NewSortedItems`, `Reset`, `Sort` -/

section SortViewProofs
variable {T C : Type}

theorem length_identityOrder (n : Nat) : (identityOrder n).length = n := by
  simp [identityOrder]

theorem getI_identityOrder (n : Nat) (i : Int) (h0 : 0 ≤ i) (h1 : i < n) :
    getI (identityOrder n) i = some i := by
  unfold getI identityOrder
  have h : ¬ (i < 0) := by omega
  rw [if_neg h, List.getElem?_map, List.getElem?_range (by omega)]
  simp only [Option.map_some', Option.some.injEq]
  omega

theorem mem_identityOrder (n : Nat) (a : Int) :
    a ∈ identityOrder n ↔ ∃ k : Nat, k < n ∧ (k : Int) = a := by
  simp [identityOrder]

/-- C15: after `s.Reset(b)`, whatever the previous base, permutation and capacity of
`s`, the view has the length of `b` and the identity permutation, so `Map(i) = i` and
`At(i) = b.At(i)` at every position; `NewSortedItems(b)` has the same permutation. -/
theorem Reset_identity (oldBase : Items T C) (Order : GoSlice Int) (b : Items T C)
    (hlen : 0 ≤ b.Len) :
    ∃ order, SortedItems.Reset oldBase Order b = some (SortedItems b order) ∧
      order.elems = identityOrder b.Len.toNat ∧
      (SortedItems b order).Len = b.Len ∧
      (∀ i : Int, 0 ≤ i → i < b.Len →
        SortedItems.Map order i = some i ∧ (SortedItems b order).At i = b.At i) ∧
      ∃ order0, NewSortedItems b = some (SortedItems b order0) ∧ order0.elems = order.elems := by
  have hnew : NewSortedItems b = some (SortedItems b ⟨identityOrder b.Len.toNat, []⟩) := by
    unfold NewSortedItems
    rw [if_neg (by omega)]
  have key : ∀ order : GoSlice Int, order.elems = identityOrder b.Len.toNat →
      (SortedItems b order).Len = b.Len ∧
      (∀ i : Int, 0 ≤ i → i < b.Len →
        SortedItems.Map order i = some i ∧ (SortedItems b order).At i = b.At i) ∧
      ∃ order0, NewSortedItems b = some (SortedItems b order0) ∧ order0.elems = order.elems := by
    intro order ho
    refine ⟨?_, ?_, ⟨_, hnew, ho.symm⟩⟩
    · show ((order.elems.length : Nat) : Int) = b.Len
      rw [ho, length_identityOrder]
      omega
    · intro i h0 h1
      have hg := getI_identityOrder b.Len.toNat i h0 (by omega)
      simp only [SortedItems.Map, Items.At, ho, hg, and_self]
  by_cases hcap : Order.cap ≥ b.Len
  · have hs := GoSlice.slice_valid Order 0 b.Len (le_refl 0) hlen hcap
    have hl := GoSlice.slice_length Order 0 b.Len (le_refl 0) hlen hcap
    have he : identityOrder
        (((Order.elems ++ Order.spare).drop (0 : Int).toNat).take (b.Len - 0).toNat).length
        = identityOrder b.Len.toNat := by
      congr 1
      omega
    refine ⟨⟨identityOrder b.Len.toNat, (Order.elems ++ Order.spare).drop b.Len.toNat⟩, ?_, rfl,
      key _ rfl⟩
    unfold SortedItems.Reset
    rw [if_pos hcap, hs]
    simp only [he]
  · refine ⟨⟨identityOrder b.Len.toNat, []⟩, ?_, rfl, key _ rfl⟩
    unfold SortedItems.Reset
    rw [if_neg hcap]

/-- Witness of C15: a sort view of capacity 5 over some other base, reset to `[7, 8, 9]`. -/
theorem Reset_identity_witness :
    ∃ order, SortedItems.Reset (base 1 [1, 2]) ⟨[1, 0], [4, 4, 4]⟩ (base 2 [7, 8, 9])
        = some (SortedItems (base 2 [7, 8, 9]) order) ∧
      order.elems = [0, 1, 2] := by
  obtain ⟨order, h1, h2, _⟩ :=
    Reset_identity (base 1 [1, 2]) ⟨[1, 0], [4, 4, 4]⟩ (base 2 [7, 8, 9]) (by decide)
  exact ⟨order, h1, h2⟩

theorem insertAsc_perm (cmp : Int → Int → Int) (x : Int) :
    ∀ l : List Int, (insertAsc cmp x l).Perm (x :: l) := by
  intro l
  induction l with
  | nil => exact List.Perm.refl _
  | cons y ys ih =>
    unfold insertAsc
    by_cases h : cmp x y ≤ 0
    · rw [if_pos h]
    · rw [if_neg h]
      exact (List.Perm.cons y ih).trans (List.Perm.swap x y ys)

theorem insertionSortFunc_perm (cmp : Int → Int → Int) :
    ∀ l : List Int, (insertionSortFunc cmp l).Perm l := by
  intro l
  induction l with
  | nil => exact List.Perm.refl _
  | cons x xs ih =>
    unfold insertionSortFunc
    exact (insertAsc_perm cmp x _).trans (List.Perm.cons x ih)

theorem insertAsc_pairwise (cmp : Int → Int → Int) (x : Int) :
    ∀ l : List Int,
      (∀ a ∈ x :: l, ∀ b ∈ x :: l, (cmp a b < 0 ↔ 0 < cmp b a)) →
      (∀ a ∈ x :: l, ∀ b ∈ x :: l, ∀ c ∈ x :: l, cmp a b ≤ 0 → cmp b c ≤ 0 → cmp a c ≤ 0) →
      l.Pairwise (fun a b => cmp a b ≤ 0) →
      (insertAsc cmp x l).Pairwise (fun a b => cmp a b ≤ 0) := by
  intro l
  induction l with
  | nil => intro _ _ _; simp [insertAsc]
  | cons y ys ih =>
    intro hanti htrans hp
    have hx : x ∈ x :: y :: ys := List.mem_cons_self _ _
    have hy : y ∈ x :: y :: ys := List.mem_cons_of_mem _ (List.mem_cons_self _ _)
    have hys : ∀ z ∈ ys, z ∈ x :: y :: ys :=
      fun z hz => List.mem_cons_of_mem _ (List.mem_cons_of_mem _ hz)
    rw [List.pairwise_cons] at hp
    unfold insertAsc
    by_cases h : cmp x y ≤ 0
    · rw [if_pos h, List.pairwise_cons]
      refine ⟨?_, List.pairwise_cons.mpr hp⟩
      intro z hz
      rcases List.mem_cons.mp hz with hz | hz
      · rw [hz]; exact h
      · exact htrans x hx y hy z (hys z hz) h (hp.1 z hz)
    · rw [if_neg h, List.pairwise_cons]
      have hsub : ∀ z ∈ x :: ys, z ∈ x :: y :: ys := by
        intro z hz
        rcases List.mem_cons.mp hz with hz | hz
        · rw [hz]; exact hx
        · exact hys z hz
      refine ⟨?_, ih (fun a ha b hb => hanti a (hsub a ha) b (hsub b hb))
        (fun a ha b hb c hc => htrans a (hsub a ha) b (hsub b hb) c (hsub c hc)) hp.2⟩
      intro z hz
      rcases List.mem_cons.mp ((insertAsc_perm cmp x ys).mem_iff.mp hz) with hz | hz
      · rw [hz]
        have := (hanti y hy x hx).mpr (by omega)
        omega
      · exact hp.1 z hz

theorem insertionSortFunc_contract : SortFuncContract insertionSortFunc := by
  intro cmp l
  induction l with
  | nil => intro _ _; exact ⟨List.Perm.refl _, List.Pairwise.nil⟩
  | cons x xs ih =>
    intro hanti htrans
    refine ⟨insertionSortFunc_perm cmp _, ?_⟩
    have hsub : ∀ z ∈ xs, z ∈ x :: xs := fun z hz => List.mem_cons_of_mem _ hz
    have hrec := (ih (fun a ha b hb => hanti a (hsub a ha) b (hsub b hb))
      (fun a ha b hb c hc => htrans a (hsub a ha) b (hsub b hb) c (hsub c hc))).2
    have hmem : ∀ z ∈ x :: insertionSortFunc cmp xs, z ∈ x :: xs := by
      intro z hz
      rcases List.mem_cons.mp hz with hz | hz
      · rw [hz]; exact List.mem_cons_self _ _
      · exact hsub z ((insertionSortFunc_perm cmp xs).mem_iff.mp hz)
    unfold insertionSortFunc
    exact insertAsc_pairwise cmp x _ (fun a ha b hb => hanti a (hmem a ha) b (hmem b hb))
      (fun a ha b hb c hc => htrans a (hmem a ha) b (hmem b hb) c (hmem c hc)) hrec

end SortViewProofs

section SortClaim
variable {T C : Type}

theorem orderCmp_eq (base : Items T C) (cmp : T → T → Int) (a b : Int) (x y : T)
    (ha : base.At a = some x) (hb : base.At b = some y) : orderCmp base cmp a b = cmp x y := by
  simp [orderCmp, ha, hb]

/-- C14: for `s = NewSortedItems(base)` over an accessible base, a comparison `cmp` that
is a consistent total preorder and any `slices.SortFunc` meeting its contract, after
`s.Sort(cmp)` the permutation is a permutation of the list `0, 1, ..., base.Len()-1` (it
holds every position `k < base.Len()`, without repetition), the length is the length of
the base, `s.At(i) = base.At(s.Map(i))` at every position, and the items are in
non-decreasing order. -/
theorem Sort_sorted (sortFunc : (Int → Int → Int) → List Int → List Int)
    (hcon : SortFuncContract sortFunc) (base : Items T C) (cmp : T → T → Int)
    (hcmp : ThreeWayPreorder cmp) (hacc : base.Accessible) :
    ∃ order0 order, NewSortedItems base = some (SortedItems base order0) ∧
      SortedItems.Sort sortFunc base order0 cmp = some (SortedItems base order) ∧
      order.elems.Perm ((List.range base.Len.toNat).map (fun (k : Nat) => (k : Int))) ∧
      (∀ k : Nat, (k : Int) < base.Len → (k : Int) ∈ order.elems) ∧
      order.elems.Nodup ∧
      (order.elems.length : Int) = base.Len ∧
      (SortedItems base order).Len = base.Len ∧
      (∀ i : Int, 0 ≤ i → i < base.Len →
        ∃ j, SortedItems.Map order i = some j ∧ (SortedItems base order).At i = base.At j) ∧
      (∀ i j : Nat, i < j → (j : Int) < base.Len →
        ∃ x y, (SortedItems base order).At (i : Int) = some x ∧
          (SortedItems base order).At (j : Int) = some y ∧ cmp x y ≤ 0) := by
  obtain ⟨hlen, hptr⟩ := hacc
  have hnew : NewSortedItems base
      = some (SortedItems base ⟨identityOrder base.Len.toNat, []⟩) := by
    unfold NewSortedItems
    rw [if_neg (by omega)]
  have hat : ∀ a ∈ identityOrder base.Len.toNat, ∃ x, base.At a = some x := by
    intro a ha
    obtain ⟨k, hk, rfl⟩ := (mem_identityOrder _ a).mp ha
    rw [← Items.AtPtr_eq_At]
    exact Option.isSome_iff_exists.mp (hptr k (List.mem_range.mpr hk))
  -- the permutation after the call, with the two facts the contract gives
  have hsorted : ∃ order : GoSlice Int,
      SortedItems.Sort sortFunc base ⟨identityOrder base.Len.toNat, []⟩ cmp
        = some (SortedItems base order) ∧
      order.elems.Perm (identityOrder base.Len.toNat) ∧
      order.elems.Pairwise (fun a b => orderCmp base cmp a b ≤ 0) := by
    by_cases h2 : (identityOrder base.Len.toNat).length < 2
    · refine ⟨⟨identityOrder base.Len.toNat, []⟩, ?_, List.Perm.refl _, ?_⟩
      · unfold SortedItems.Sort
        rw [if_pos h2]
      · match hl : identityOrder base.Len.toNat, h2 with
        | [], _ => exact List.Pairwise.nil
        | [a], _ => exact List.pairwise_singleton _ _
        | _ :: _ :: _, h2 => simp only [List.length_cons] at h2; omega
    · have hall : (identityOrder base.Len.toNat).all (fun a => (base.At a).isSome) = true := by
        rw [List.all_eq_true]
        intro a ha
        obtain ⟨x, hx⟩ := hat a ha
        simp [hx]
      obtain ⟨hperm, hpw⟩ := hcon (orderCmp base cmp) (identityOrder base.Len.toNat)
        (by
          intro a ha b hb
          obtain ⟨x, hx⟩ := hat a ha
          obtain ⟨y, hy⟩ := hat b hb
          rw [orderCmp_eq base cmp a b x y hx hy, orderCmp_eq base cmp b a y x hy hx]
          exact hcmp.antisymm x y)
        (by
          intro a ha b hb c hc
          obtain ⟨x, hx⟩ := hat a ha
          obtain ⟨y, hy⟩ := hat b hb
          obtain ⟨z, hz⟩ := hat c hc
          rw [orderCmp_eq base cmp a b x y hx hy, orderCmp_eq base cmp b c y z hy hz,
            orderCmp_eq base cmp a c x z hx hz]
          exact hcmp.trans x y z)
      refine ⟨⟨sortFunc (orderCmp base cmp) (identityOrder base.Len.toNat), []⟩, ?_, hperm, hpw⟩
      unfold SortedItems.Sort
      rw [if_neg h2]
      simp only [hall, if_true]
  obtain ⟨order, hsort, hperm, hpw⟩ := hsorted
  have hl : order.elems.length = base.Len.toNat := by
    rw [hperm.length_eq, length_identityOrder]
  have hperm1 : order.elems.Perm
      ((List.range base.Len.toNat).map (fun (k : Nat) => (k : Int))) := hperm
  have hnd : ((List.range base.Len.toNat).map (fun (k : Nat) => (k : Int))).Nodup :=
    List.Nodup.map (fun a b h => Int.ofNat.inj h) (List.nodup_range _)
  refine ⟨_, order, hnew, hsort, hperm1, ?_, hperm1.nodup_iff.mpr hnd, by omega, ?_, ?_, ?_⟩
  · intro k hk
    apply hperm1.mem_iff.mpr
    exact List.mem_map.mpr ⟨k, List.mem_range.mpr (by omega), rfl⟩
  · show ((order.elems.length : Nat) : Int) = base.Len
    omega
  · intro i h0 h1
    have hi : i.toNat < order.elems.length := by omega
    refine ⟨order.elems[i.toNat], ?_, ?_⟩
    · unfold SortedItems.Map getI
      rw [if_neg (by omega), List.getElem?_eq_getElem hi]
    · have hg : getI order.elems i = some order.elems[i.toNat] := by
        unfold getI
        rw [if_neg (by omega), List.getElem?_eq_getElem hi]
      simp only [Items.At, hg]
  · intro i j hij hj
    have hjl : j < order.elems.length := by omega
    have hil : i < order.elems.length := by omega
    obtain ⟨x, hx⟩ := hat order.elems[i] (hperm.mem_iff.mp (List.getElem_mem hil))
    obtain ⟨y, hy⟩ := hat order.elems[j] (hperm.mem_iff.mp (List.getElem_mem hjl))
    have hle := List.pairwise_iff_getElem.mp hpw i j hil hjl hij
    rw [orderCmp_eq base cmp _ _ x y hx hy] at hle
    refine ⟨x, y, ?_, ?_, hle⟩
    · simp only [Items.At, getI_natCast, List.getElem?_eq_getElem hil, hx]
    · simp only [Items.At, getI_natCast, List.getElem?_eq_getElem hjl, hy]

end SortClaim

theorem cmpNat_threeWayPreorder : ThreeWayPreorder cmpNat :=
  ⟨fun a b => by unfold cmpNat; omega, fun a b c => by unfold cmpNat; omega⟩

/-- Witness of C14: the base `[3, 1, 2]` sorted with an insertion sort under `a - b`. -/
theorem Sort_sorted_witness :
    ∃ order0 order, NewSortedItems (base 1 [3, 1, 2]) = some (SortedItems (base 1 [3, 1, 2]) order0) ∧
      SortedItems.Sort insertionSortFunc (base 1 [3, 1, 2]) order0 cmpNat
        = some (SortedItems (base 1 [3, 1, 2]) order) ∧
      order.elems.Perm [0, 1, 2] ∧
      (0 : Int) ∈ order.elems ∧ (1 : Int) ∈ order.elems ∧ (2 : Int) ∈ order.elems ∧
      (order.elems.length : Int) = 3 ∧
      (SortedItems (base 1 [3, 1, 2]) order).Len = 3 := by
  obtain ⟨order0, order, h1, h2, h3, h4, _, h6, h7, _⟩ :=
    Sort_sorted insertionSortFunc insertionSortFunc_contract (base 1 [3, 1, 2]) cmpNat
      cmpNat_threeWayPreorder (by decide)
  exact ⟨order0, order, h1, h2, h3, h4 0 (by decide), h4 1 (by decide), h4 2 (by decide),
    h6, h7⟩

/-! ## Containers -/

section ContainerPropagation
variable {T C : Type} [DecidableEq C] [Inhabited C]

theorem container_of_inrange (b : Items T C) (tag : C) (sub : GoSlice Int)
    (hC : b.Container = some (tag, true))
    (hAt : ∀ i : Int, 0 ≤ i → i < b.Len → b.ContainerAt i = some tag)
    (hin : ∃ j ∈ sub.elems, 0 ≤ j ∧ j < b.Len) :
    (ItemsSubset b sub).Container = some (tag, true) ∧
    (SortedItems b sub).Container = some (tag, true) := by
  by_cases hl : (sub.elems.length : Int) = 1
  · obtain ⟨j, hj, hj0, hj1⟩ := hin
    match hs : sub.elems, hl, hj with
    | [j0], _, hj =>
      have hjj : j = j0 := List.mem_singleton.mp hj
      subst hjj
      have hg : getI sub.elems 0 = some j := by rw [hs]; simp [getI]
      have hl1 : (sub.elems.length : Int) = 1 := by rw [hs]; rfl
      have h1 : (ItemsSubset b sub).ContainerAt 0 = some tag := by
        simp only [Items.ContainerAt, hg]
        exact hAt j hj0 hj1
      have h2 : (SortedItems b sub).ContainerAt 0 = some tag := by
        simp only [Items.ContainerAt, hg]
        exact hAt j hj0 hj1
      constructor
      · unfold Items.Container
        rw [if_pos hl1, h1]
      · unfold Items.Container
        rw [if_pos hl1, h2]
    | [], hl, _ => simp at hl
    | _ :: _ :: _, hl, _ =>
      simp only [List.length_cons] at hl
      omega
  · constructor
    · unfold Items.Container
      rw [if_neg hl, hC]
    · unfold Items.Container
      rw [if_neg hl, hC]

/-- C18: over a base `b` that reports the single tag `T` (from `Container()` and from
`ContainerAt` at every valid position), every sparse-subset view and every sort view with
at least one in-range position return `(T, true)` from `Container()`; a slice of such a
view is again a view over `b` and returns `(T, true)` as soon as it keeps an in-range
position. -/
theorem Container_propagation (b : Items T C) (tag : C) (sub : GoSlice Int)
    (hC : b.Container = some (tag, true))
    (hAt : ∀ i : Int, 0 ≤ i → i < b.Len → b.ContainerAt i = some tag)
    (hin : ∃ j ∈ sub.elems, 0 ≤ j ∧ j < b.Len) :
    (ItemsSubset b sub).Container = some (tag, true) ∧
    (SortedItems b sub).Container = some (tag, true) ∧
    ∀ (s e : Int) (sub1 : GoSlice Int), sub.slice s e = some sub1 →
      (∃ j ∈ sub1.elems, 0 ≤ j ∧ j < b.Len) →
      (ItemsSubset b sub).Slice s e = some (ItemsSubset b sub1) ∧
      (ItemsSubset b sub1).Container = some (tag, true) ∧
      (SortedItems b sub).Slice s e = some (SortedItems b sub1) ∧
      (SortedItems b sub1).Container = some (tag, true) := by
  obtain ⟨h1, h2⟩ := container_of_inrange b tag sub hC hAt hin
  refine ⟨h1, h2, ?_⟩
  intro s e sub1 hs hin1
  obtain ⟨h3, h4⟩ := container_of_inrange b tag sub1 hC hAt hin1
  refine ⟨?_, h3, ?_, h4⟩
  · simp only [Items.Slice, hs]
  · simp only [Items.Slice, hs]

end ContainerPropagation

/-- Witness of C18: positions `2, 0` of the base `[5, 6, 7]` with tag 4. -/
theorem Container_propagation_witness :
    (ItemsSubset (base 4 [5, 6, 7]) ⟨[2, 0], []⟩).Container = some (4, true) ∧
    (SortedItems (base 4 [5, 6, 7]) ⟨[2, 0], []⟩).Container = some (4, true) :=
  have h := Container_propagation (base 4 [5, 6, 7]) 4 ⟨[2, 0], []⟩ rfl (fun _ _ _ => rfl)
    ⟨2, by decide, by decide, by decide⟩
  ⟨h.1, h.2.1⟩

/-- C16, on the code: the view built by `MergeItems` from a one-item slice of a merge view
and a base reports `(1, true)` from `Container()` although its item at position 1 has
container 2: the slice reports the tag of its only item, and flattening brings back the
other items of the merge view. -/
theorem Container_unsound_after_flatten :
    MergeItems [base 1 [1, 3], base 2 [2]] ltNat
      = some (MergedItems [base 1 [1, 3], base 2 [2]] 0 [0, 2, 1] 0 3) ∧
    (MergedItems [base 1 [1, 3], base 2 [2]] 0 [0, 2, 1] 0 3).Slice 0 1
      = some (MergedItems [base 1 [1, 3], base 2 [2]] 0 [0, 2, 1] 0 1) ∧
    (MergedItems [base 1 [1, 3], base 2 [2]] 0 [0, 2, 1] 0 1).Container = some (1, true) ∧
    (base 1 [5]).Container = some (1, true) ∧
    MergeItems [MergedItems [base 1 [1, 3], base 2 [2]] 0 [0, 2, 1] 0 1, base 1 [5]] ltNat
      = some (MergedItems [base 1 [1, 3], base 2 [2], base 1 [5]] 1 [0, 2, 1, 3] 0 4) ∧
    (MergedItems [base 1 [1, 3], base 2 [2], base 1 [5]] 1 [0, 2, 1, 3] 0 4).Len = 4 ∧
    (MergedItems [base 1 [1, 3], base 2 [2], base 1 [5]] 1 [0, 2, 1, 3] 0 4).Container
      = some (1, true) ∧
    (MergedItems [base 1 [1, 3], base 2 [2], base 1 [5]] 1 [0, 2, 1, 3] 0 4).ContainerAt 1
      = some 2 :=
  ⟨rfl, rfl, by decide, by decide, rfl, rfl, by decide, by decide⟩

/-! ## The base list and the container of a merge -/

section FlattenShape
variable {T C : Type}

theorem flattenBases_append (l1 l2 : List (Items T C)) :
    flattenBases (l1 ++ l2) = flattenBases l1 ++ flattenBases l2 := by
  induction l1 with
  | nil => rfl
  | cons v l1 ih =>
    have e1 : flattenBases (v :: l1 ++ l2)
        = if v.Len = 0 then flattenBases (l1 ++ l2)
          else appendBases [] v ++ flattenBases (l1 ++ l2) := rfl
    have e2 : flattenBases (v :: l1)
        = if v.Len = 0 then flattenBases l1 else appendBases [] v ++ flattenBases l1 := rfl
    rw [e1, e2, ih]
    by_cases h : v.Len = 0
    · rw [if_pos h, if_pos h]
    · rw [if_neg h, if_neg h, List.append_assoc]

theorem totalLen_append (l1 l2 : List (Items T C)) :
    totalLen (l1 ++ l2) = totalLen l1 + totalLen l2 := by
  simp [totalLen]

theorem flattenBases_not_merged (items : List (Items T C))
    (hflat : ∀ v ∈ items, v.basesFlat = true) :
    ∀ b ∈ flattenBases items, b.isMerged = false := by
  induction items with
  | nil => intro b hb; cases hb
  | cons v rest ih =>
    have hrest := ih (fun u hu => hflat u (List.mem_cons_of_mem _ hu))
    have hv := hflat v (List.mem_cons_self _ _)
    intro b hb
    unfold flattenBases at hb
    by_cases h : v.Len = 0
    · rw [if_pos h] at hb
      exact hrest b hb
    · rw [if_neg h, List.mem_append] at hb
      rcases hb with hb | hb
      · cases v with
        | MergedItems bases sc indices start stop =>
          simp only [appendBases, List.nil_append] at hb
          simp only [Items.basesFlat, List.all_eq_true] at hv
          simpa using hv b hb
        | SimpleItems _ _ _ _ =>
          simp only [appendBases, List.nil_append, List.mem_singleton] at hb
          rw [hb]; rfl
        | NoItems =>
          simp only [appendBases, List.nil_append, List.mem_singleton] at hb
          rw [hb]; rfl
        | ItemsSubset _ _ =>
          simp only [appendBases, List.nil_append, List.mem_singleton] at hb
          rw [hb]; rfl
        | SortedItems _ _ =>
          simp only [appendBases, List.nil_append, List.mem_singleton] at hb
          rw [hb]; rfl
      · exact hrest b hb

theorem len_le_totalLen_appendBases (u : Items T C) (hwin : u.windowInside) :
    u.Len ≤ totalLen (appendBases [] u) := by
  cases u with
  | MergedItems bases sc indices start stop =>
    simp only [Items.windowInside] at hwin
    simp only [appendBases, List.nil_append, Items.Len]
    omega
  | SimpleItems _ _ _ _ => simp [appendBases, totalLen]
  | NoItems => simp [appendBases, totalLen]
  | ItemsSubset _ _ => simp [appendBases, totalLen]
  | SortedItems _ _ => simp [appendBases, totalLen]

theorem len_le_totalLen_flattenBases (w : Items T C) (hw : w.windowInside) :
    ∀ rest : List (Items T C), w ∈ rest → (∀ b ∈ flattenBases rest, 0 ≤ b.Len) →
      w.Len ≤ totalLen (flattenBases rest) := by
  intro rest
  induction rest with
  | nil => intro h; cases h
  | cons x xs ih =>
    intro hmem hnn
    unfold flattenBases at hnn ⊢
    by_cases h : x.Len = 0
    · rw [if_pos h] at hnn ⊢
      rcases List.mem_cons.mp hmem with hx | hx
      · rw [hx, h]
        exact totalLen_nonneg _ hnn
      · exact ih hx hnn
    · rw [if_neg h] at hnn ⊢
      rw [totalLen_append]
      have h1 : 0 ≤ totalLen (appendBases [] x) :=
        totalLen_nonneg _ (fun b hb => hnn b (List.mem_append_left _ hb))
      have h2 : 0 ≤ totalLen (flattenBases xs) :=
        totalLen_nonneg _ (fun b hb => hnn b (List.mem_append_right _ hb))
      rcases List.mem_cons.mp hmem with hx | hx
      · have := len_le_totalLen_appendBases w hw
        rw [hx] at this ⊢
        omega
      · have := ih hx (fun b hb => hnn b (List.mem_append_right _ hb))
        omega

theorem two_le_totalLen_flattenBases (pre rest : List (Items T C)) (v w : Items T C)
    (hw : w ∈ rest) (hv : 0 < v.Len) (hwl : 0 < w.Len) (hwv : v.windowInside)
    (hww : w.windowInside) (hnn : ∀ b ∈ flattenBases (pre ++ v :: rest), 0 ≤ b.Len) :
    2 ≤ totalLen (flattenBases (pre ++ v :: rest)) := by
  have hvne : ¬ (v.Len = 0) := by omega
  have hshape : flattenBases (pre ++ v :: rest)
      = flattenBases pre ++ (appendBases [] v ++ flattenBases rest) := by
    rw [flattenBases_append]
    congr 1
    simp only [flattenBases, if_neg hvne]
  rw [hshape] at hnn ⊢
  rw [totalLen_append, totalLen_append]
  have h1 : 0 ≤ totalLen (flattenBases pre) :=
    totalLen_nonneg _ (fun b hb => hnn b (List.mem_append_left _ hb))
  have h2 := len_le_totalLen_appendBases v hwv
  have h3 := len_le_totalLen_flattenBases w hww rest hw
    (fun b hb => hnn b (List.mem_append_right _ (List.mem_append_right _ hb)))
  omega

end FlattenShape

section MergeShape
variable {T C : Type} [DecidableEq C] [Inhabited C]

theorem mergeLoop_bases_of_some :
    ∀ (items : List (Items T C)) (st r : C × Bool × Bool × List (Items T C)),
      mergeLoop items st = some r → r.2.2.2 = st.2.2.2 ++ flattenBases items := by
  intro items
  induction items with
  | nil =>
    intro st r h
    obtain ⟨sc, has, first, bases⟩ := st
    simp only [mergeLoop, Option.some.injEq] at h
    rw [← h]; simp [flattenBases]
  | cons v rest ih =>
    intro st r h
    obtain ⟨sc, has, first, bases⟩ := st
    by_cases hv : v.Len = 0
    · simp only [mergeLoop, hv, if_true] at h
      simpa [flattenBases, hv] using ih _ r h
    · simp only [mergeLoop, hv, if_false] at h
      cases hc : v.Container with
      | none => rw [hc] at h; cases h
      | some p =>
        obtain ⟨c, ok⟩ := p
        rw [hc] at h
        have := ih _ r h
        simp only [flattenBases, if_neg hv] at this ⊢
        rw [this, appendBases_eq bases v, List.append_assoc]

theorem MergeItems_returns (items : List (Items T C)) (less : T → T → Bool)
    (h2 : 2 ≤ items.length)
    (hC : ∀ v ∈ items, v.Len ≠ 0 → (v.Container).isSome = true)
    (hne : flattenBases items ≠ [])
    (hacc : ∀ b ∈ flattenBases items, b.Accessible) :
    ∃ sc has first indices,
      mergeLoop items (default, false, true, []) = some (sc, has, first, flattenBases items) ∧
      MergeItems items less
        = some (MergedItems (flattenBases items) (if !has then default else sc) indices 0
            (totalLen (flattenBases items))) := by
  obtain ⟨sc, has, first, hloop⟩ := mergeLoop_bases items (default, false, true, []) hC
  simp only [List.nil_append] at hloop
  obtain ⟨offsets, picks, hsort, _, _⟩ := sort_spec less (flattenBases items) hne hacc
  refine ⟨sc, has, first, picks.map (absPos (flattenBases items)), hloop, ?_⟩
  rw [MergeItems_of_two items less h2, hloop]
  simp only [hsort]

/-- C20: when every merge view among the inputs has a base list without merge views, the
base list of the view `MergeItems` returns has none either; and for two or more inputs
with a non-empty flattened base list of accessible views `MergeItems` does return such a
merge view. -/
theorem MergeItems_flat (items : List (Items T C)) (less : T → T → Bool)
    (hflat : ∀ v ∈ items, v.basesFlat = true) :
    (∀ r, MergeItems items less = some r → r.basesFlat = true) ∧
    (2 ≤ items.length → (∀ v ∈ items, v.Len ≠ 0 → (v.Container).isSome = true) →
      flattenBases items ≠ [] → (∀ b ∈ flattenBases items, b.Accessible) →
      ∃ bases sc indices stop, MergeItems items less = some (MergedItems bases sc indices 0 stop) ∧
        ∀ b ∈ bases, b.isMerged = false) := by
  constructor
  · intro r hr
    match items, hflat, hr with
    | [], _, hr =>
      simp only [MergeItems, Option.some.injEq] at hr
      rw [← hr]; rfl
    | [v], hflat, hr =>
      simp only [MergeItems, Option.some.injEq] at hr
      rw [← hr]; exact hflat v (List.mem_singleton.mpr rfl)
    | a :: b :: rest, hflat, hr =>
      rw [MergeItems_of_two _ less (by simp)] at hr
      cases hl : mergeLoop (a :: b :: rest) (default, false, true, []) with
      | none => rw [hl] at hr; cases hr
      | some st =>
        obtain ⟨sc, has, first, bases⟩ := st
        have hb := mergeLoop_bases_of_some _ _ _ hl
        simp only [List.nil_append] at hb
        rw [hl] at hr
        simp only at hr
        cases hs : MergedItems.sort bases less with
        | none => rw [hs] at hr; cases hr
        | some indices =>
          rw [hs] at hr
          simp only [Option.some.injEq] at hr
          rw [← hr]
          simp only [Items.basesFlat, List.all_eq_true, Bool.not_eq_true']
          intro x hx
          rw [hb] at hx
          exact flattenBases_not_merged _ hflat x hx
  · intro h2 hC hne hacc
    obtain ⟨sc, has, first, indices, _, hm⟩ := MergeItems_returns items less h2 hC hne hacc
    exact ⟨_, _, indices, _, hm, flattenBases_not_merged items hflat⟩

end MergeShape

/-- Witness of C20: a merge view with a flat base list merged with one more base. -/
theorem MergeItems_flat_witness :
    ∃ bases sc indices stop,
      MergeItems [MergedItems [base 1 [1, 3], base 1 [2]] 1 [0, 2, 1] 0 3, base 1 [5]] ltNat
        = some (MergedItems bases sc indices 0 stop) ∧
      ∀ b ∈ bases, b.isMerged = false :=
  (MergeItems_flat [MergedItems [base 1 [1, 3], base 1 [2]] 1 [0, 2, 1] 0 3, base 1 [5]] ltNat
    (by decide)).2 (by decide) (by decide)
    (by simp [flattenBases, appendBases, base, Items.Len]) (by decide)

section MergeContainer
variable {T C : Type} [DecidableEq C] [Inhabited C]

theorem mergeLoop_has_later :
    ∀ (items : List (Items T C)) (sc : C) (has : Bool) (bases : List (Items T C))
      (r : C × Bool × Bool × List (Items T C)),
      mergeLoop items (sc, has, false, bases) = some r →
      r.1 = sc ∧ r.2.2.1 = false ∧
      (r.2.1 = true ↔ has = true ∧ ∀ v ∈ items, v.Len ≠ 0 → v.Container = some (sc, true)) := by
  intro items
  induction items with
  | nil =>
    intro sc has bases r h
    simp only [mergeLoop, Option.some.injEq] at h
    rw [← h]
    simp
  | cons v rest ih =>
    intro sc has bases r h
    by_cases hv : v.Len = 0
    · simp only [mergeLoop, hv, if_true] at h
      obtain ⟨h1, h2, h3⟩ := ih sc has bases r h
      refine ⟨h1, h2, ?_⟩
      rw [h3]
      constructor
      · rintro ⟨ha, hb⟩
        refine ⟨ha, ?_⟩
        intro u hu hul
        rcases List.mem_cons.mp hu with hu | hu
        · rw [hu] at hul; exact absurd hv hul
        · exact hb u hu hul
      · rintro ⟨ha, hb⟩
        exact ⟨ha, fun u hu => hb u (List.mem_cons_of_mem _ hu)⟩
    · simp only [mergeLoop, hv, if_false] at h
      cases hc : v.Container with
      | none => rw [hc] at h; cases h
      | some p =>
        obtain ⟨c, ok⟩ := p
        rw [hc] at h
        simp only [Bool.false_eq_true, if_false] at h
        obtain ⟨h1, h2, h3⟩ := ih _ _ _ r h
        refine ⟨h1, h2, ?_⟩
        rw [h3]
        constructor
        · rintro ⟨ha, hb⟩
          have hok : ok = true := by
            cases ok with
            | true => rfl
            | false => simp at ha
          have hcs : c = sc := by
            by_contra hne
            simp [hok, hne] at ha
          have hhas : has = true := by
            simpa [hok, hcs] using ha
          refine ⟨hhas, ?_⟩
          intro u hu hul
          rcases List.mem_cons.mp hu with hu | hu
          · rw [hu, hc, hok, hcs]
          · exact hb u hu hul
        · rintro ⟨ha, hb⟩
          have hvc := hb v (List.mem_cons_self _ _) hv
          rw [hc] at hvc
          simp only [Option.some.injEq, Prod.mk.injEq] at hvc
          refine ⟨by simp [hvc.1, hvc.2, ha], fun u hu => hb u (List.mem_cons_of_mem _ hu)⟩

theorem mergeLoop_has_first :
    ∀ (items : List (Items T C)) (sc0 : C) (has0 : Bool) (bases : List (Items T C))
      (r : C × Bool × Bool × List (Items T C)),
      mergeLoop items (sc0, has0, true, bases) = some r → (∃ v ∈ items, v.Len ≠ 0) →
      r.2.2.1 = false ∧
      (r.2.1 = true ↔ ∀ v ∈ items, v.Len ≠ 0 → v.Container = some (r.1, true)) ∧
      (∀ tag, (∀ v ∈ items, v.Len ≠ 0 → v.Container = some (tag, true)) → r.1 = tag) := by
  intro items
  induction items with
  | nil =>
    intro sc0 has0 bases r _ hex
    obtain ⟨v, hv, _⟩ := hex
    cases hv
  | cons v rest ih =>
    intro sc0 has0 bases r h hex
    by_cases hv : v.Len = 0
    · simp only [mergeLoop, hv, if_true] at h
      have hex' : ∃ u ∈ rest, u.Len ≠ 0 := by
        obtain ⟨u, hu, hul⟩ := hex
        rcases List.mem_cons.mp hu with hu | hu
        · rw [hu] at hul; exact absurd hv hul
        · exact ⟨u, hu, hul⟩
      obtain ⟨h1, h2, h3⟩ := ih sc0 has0 bases r h hex'
      refine ⟨h1, ?_, ?_⟩
      · rw [h2]
        constructor
        · intro hb u hu hul
          rcases List.mem_cons.mp hu with hu | hu
          · rw [hu] at hul; exact absurd hv hul
          · exact hb u hu hul
        · intro hb u hu
          exact hb u (List.mem_cons_of_mem _ hu)
      · intro tag htag
        exact h3 tag (fun u hu => htag u (List.mem_cons_of_mem _ hu))
    · simp only [mergeLoop, hv, if_false] at h
      cases hc : v.Container with
      | none => rw [hc] at h; cases h
      | some p =>
        obtain ⟨c, ok⟩ := p
        rw [hc] at h
        simp only [if_true] at h
        obtain ⟨h1, h2, h3⟩ := mergeLoop_has_later _ _ _ _ r h
        refine ⟨h2, ?_, ?_⟩
        · rw [h3, h1]
          constructor
          · rintro ⟨ha, hb⟩ u hu hul
            have hok : ok = true := by
              cases ok with
              | true => rfl
              | false => simp at ha
            rcases List.mem_cons.mp hu with hu | hu
            · rw [hu, hc, hok]
            · exact hb u hu hul
          · intro hb
            have hvc := hb v (List.mem_cons_self _ _) hv
            rw [hc] at hvc
            simp only [Option.some.injEq, Prod.mk.injEq] at hvc
            exact ⟨by simp [hvc.2], fun u hu => hb u (List.mem_cons_of_mem _ hu)⟩
        · intro tag htag
          have hvc := htag v (List.mem_cons_self _ _) hv
          rw [hc] at hvc
          simp only [Option.some.injEq, Prod.mk.injEq] at hvc
          rw [h1]; exact hvc.1

end MergeContainer

section MergeContainerClaim
variable {T C : Type} [DecidableEq C] [Inhabited C]

/-- C17, amended: for a list with at least two non-empty views (accessible bases, merge
views with their window inside their bases), the view `r` returned by `MergeItems` has
`r.Container() = (T, true)` when every non-empty input reports `(T, true)` for one tag `T`
other than the zero tag, and `r.Container() = (zero tag, false)` when every non-empty
input reports the zero tag, when some non-empty input reports no single container, or when
two non-empty inputs report different tags. -/
theorem MergeItems_container (pre rest : List (Items T C)) (v w : Items T C)
    (less : T → T → Bool) (hw : w ∈ rest) (hv : 0 < v.Len) (hwl : 0 < w.Len)
    (hC : ∀ u ∈ pre ++ v :: rest, u.Len ≠ 0 → (u.Container).isSome = true)
    (hacc : ∀ b ∈ flattenBases (pre ++ v :: rest), b.Accessible)
    (hwin : ∀ u ∈ pre ++ v :: rest, u.windowInside) :
    ∃ r, MergeItems (pre ++ v :: rest) less = some r ∧
      (∀ tag, tag ≠ default →
        (∀ u ∈ pre ++ v :: rest, u.Len ≠ 0 → u.Container = some (tag, true)) →
        r.Container = some (tag, true)) ∧
      ((∀ u ∈ pre ++ v :: rest, u.Len ≠ 0 → u.Container = some (default, true)) →
        r.Container = some (default, false)) ∧
      ((∃ u ∈ pre ++ v :: rest, u.Len ≠ 0 ∧ ∃ c, u.Container = some (c, false)) →
        r.Container = some (default, false)) ∧
      ((∃ u1 ∈ pre ++ v :: rest, ∃ u2 ∈ pre ++ v :: rest, u1.Len ≠ 0 ∧ u2.Len ≠ 0 ∧
          ∃ c1 c2, c1 ≠ c2 ∧ u1.Container = some (c1, true) ∧ u2.Container = some (c2, true)) →
        r.Container = some (default, false)) := by
  have hvmem : v ∈ pre ++ v :: rest := List.mem_append_right _ (List.mem_cons_self _ _)
  have hwmem : w ∈ pre ++ v :: rest :=
    List.mem_append_right _ (List.mem_cons_of_mem _ hw)
  have hn : 2 ≤ totalLen (flattenBases (pre ++ v :: rest)) :=
    two_le_totalLen_flattenBases pre rest v w hw hv hwl (hwin v hvmem) (hwin w hwmem)
      (fun b hb => (hacc b hb).1)
  have hne : flattenBases (pre ++ v :: rest) ≠ [] := by
    intro h
    rw [h] at hn
    simp [totalLen] at hn
  have h2 : 2 ≤ (pre ++ v :: rest).length := by
    have := List.length_pos_of_mem hw
    simp only [List.length_append, List.length_cons]
    omega
  obtain ⟨sc, has, first, indices, hloop, hm⟩ :=
    MergeItems_returns (pre ++ v :: rest) less h2 hC hne hacc
  obtain ⟨_, hiff, htag⟩ := mergeLoop_has_first _ _ _ _ _ hloop ⟨v, hvmem, by omega⟩
  simp only at hiff htag
  have hn1 : ¬ (totalLen (flattenBases (pre ++ v :: rest)) - 0 = 1) := by omega
  have htrue : has = true → sc ≠ default →
      (MergedItems (flattenBases (pre ++ v :: rest)) (if !has then default else sc) indices 0
        (totalLen (flattenBases (pre ++ v :: rest)))).Container = some (sc, true) := by
    intro h1 h3
    simp [Items.Container, h1, h3]
  have hfalse : (has = false ∨ sc = default) →
      (MergedItems (flattenBases (pre ++ v :: rest)) (if !has then default else sc) indices 0
        (totalLen (flattenBases (pre ++ v :: rest)))).Container = some (default, false) := by
    intro h
    have hsc : (if !has then default else sc) = (default : C) := by
      rcases h with h | h
      · simp [h]
      · simp [h]
    rw [hsc]
    simp only [Items.Container, ne_eq, not_true_eq_false, if_false, hn1]
  refine ⟨_, hm, ?_, ?_, ?_, ?_⟩
  · intro tag htn hall
    have hsc := htag tag hall
    subst hsc
    exact htrue (hiff.mpr hall) htn
  · intro hall
    exact hfalse (Or.inr (htag default hall))
  · rintro ⟨u, hu, hul, c, huc⟩
    apply hfalse
    left
    cases hh : has with
    | false => rfl
    | true =>
      have := hiff.mp hh u hu hul
      rw [huc] at this
      simp at this
  · rintro ⟨u1, hu1, u2, hu2, hl1, hl2, c1, c2, hne12, hc1, hc2⟩
    apply hfalse
    left
    cases hh : has with
    | false => rfl
    | true =>
      have e1 := hiff.mp hh u1 hu1 hl1
      have e2 := hiff.mp hh u2 hu2 hl2
      rw [hc1] at e1
      rw [hc2] at e2
      simp only [Option.some.injEq, Prod.mk.injEq, and_true] at e1 e2
      exact absurd (e1.trans e2.symm) hne12

end MergeContainerClaim

/-- C17, as stated, fails: both inputs report the zero tag `(0, true)`, yet the merged
view reports `(0, false)`. -/
theorem MergeItems_container_counterexample :
    (base 0 [1]).Container = some (0, true) ∧
    (base 0 [2]).Container = some (0, true) ∧
    MergeItems [base 0 [1], base 0 [2]] ltNat
      = some (MergedItems [base 0 [1], base 0 [2]] 0 [0, 1] 0 2) ∧
    (MergedItems [base 0 [1], base 0 [2]] 0 [0, 1] 0 2).Container = some (0, false) :=
  ⟨rfl, rfl, rfl, rfl⟩

/-- Witness of C17 amended: two bases with tag 3, and two bases with tags 3 and 4. -/
theorem MergeItems_container_witness :
    (∃ r, MergeItems [base 3 [1, 4], base 3 [2]] ltNat = some r ∧
      r.Container = some (3, true)) ∧
    (∃ r, MergeItems [base 3 [1, 4], base 4 [2]] ltNat = some r ∧
      r.Container = some (0, false)) := by
  constructor
  · obtain ⟨r, h1, h2, _⟩ :=
      MergeItems_container [] [base 3 [2]] (base 3 [1, 4]) (base 3 [2]) ltNat
        (List.mem_singleton.mpr rfl) (by decide) (by decide) (by decide) (by decide) (by decide)
    exact ⟨r, h1, h2 3 (by decide) (by decide)⟩
  · obtain ⟨r, h1, _, _, _, h5⟩ :=
      MergeItems_container [] [base 4 [2]] (base 3 [1, 4]) (base 4 [2]) ltNat
        (List.mem_singleton.mpr rfl) (by decide) (by decide) (by decide) (by decide) (by decide)
    refine ⟨r, h1, h5 ⟨base 3 [1, 4], ?_, base 4 [2], ?_, by decide, by decide, 3, 4,
      by decide, rfl, rfl⟩⟩
    · exact List.mem_cons_self _ _
    · exact List.mem_cons_of_mem _ (List.mem_singleton.mpr rfl)

/-! ## The permutation built by `MergedItems.sort` and its resolution by `index` -/

section Permutation
variable {T C : Type}

theorem totalLen_take_succ :
    ∀ (bases : List (Items T C)) (a : Nat) (b : Items T C), bases[a]? = some b →
      totalLen (bases.take (a + 1)) = totalLen (bases.take a) + b.Len := by
  intro bases
  induction bases with
  | nil => intro a b h; simp at h
  | cons b0 bs ih =>
    intro a b h
    cases a with
    | zero =>
      simp only [List.getElem?_cons_zero, Option.some.injEq] at h
      subst h
      simp [totalLen]
    | succ a =>
      simp only [List.getElem?_cons_succ] at h
      simp only [List.take_succ_cons, totalLen_cons, ih a b h]
      omega

theorem totalLen_take_bounds (bases : List (Items T C)) (hnn : ∀ b ∈ bases, 0 ≤ b.Len)
    (a : Nat) (b : Items T C) (hb : bases[a]? = some b) :
    0 ≤ totalLen (bases.take a) ∧ totalLen (bases.take a) + b.Len ≤ totalLen bases := by
  have h1 : 0 ≤ totalLen (bases.take a) :=
    totalLen_nonneg _ (fun c hc => hnn c (List.mem_of_mem_take hc))
  have h2 : 0 ≤ totalLen (bases.drop (a + 1)) :=
    totalLen_nonneg _ (fun c hc => hnn c (List.mem_of_mem_drop hc))
  have h3 : totalLen bases = totalLen (bases.take (a + 1)) + totalLen (bases.drop (a + 1)) := by
    rw [← totalLen_append, List.take_append_drop]
  rw [totalLen_take_succ bases a b hb] at h3
  exact ⟨h1, by omega⟩

theorem absPos_eq (bases : List (Items T C)) (p : Nat × Nat) (b : Items T C)
    (hb : bases[p.1]? = some b) :
    absPos bases p = totalLen (bases.take p.1) + (p.2 : Int) := by
  have hj : p.1 < bases.length := (List.getElem?_eq_some_iff.mp hb).1
  simp [absPos, startOffsetsFrom_getElem? bases 0 p.1 hj]

theorem pick_resolve (bases : List (Items T C)) (hnn : ∀ b ∈ bases, 0 ≤ b.Len)
    (p : Nat × Nat) (b : Items T C) (hb : bases[p.1]? = some b) (ho : (p.2 : Int) < b.Len) :
    indexLoop bases 0 (absPos bases p) = Sum.inl (p.1, (p.2 : Int)) := by
  rw [absPos_eq bases p b hb, indexLoop_resolve bases 0 p.1 b (p.2 : Int) hnn hb (by omega) ho]
  simp

theorem pickBefore_ne {less : T → T → Bool} {bases : List (Items T C)} {p q : Nat × Nat}
    (h : PickBefore less bases p q) : p ≠ q := by
  intro hpq
  have := h.1 (by rw [hpq])
  rw [hpq] at this
  omega

/-- C22: for a non-empty list of accessible bases and every comparison,
`MergedItems.sort` returns a permutation of `0 .. n-1`, `n` being the total length of the
bases, so `len(indices) = n`, the length of the view `MergeItems` builds with `start = 0`
and `end = n`; and the absolute positions of any one base occur in increasing order. -/
theorem sort_permutation (less : T → T → Bool) (bases : List (Items T C)) (hne : bases ≠ [])
    (hacc : ∀ b ∈ bases, b.Accessible) :
    ∃ indices, MergedItems.sort bases less = some indices ∧
      indices.Perm (identityOrder (totalLen bases).toNat) ∧
      (indices.length : Int) = totalLen bases ∧
      (∀ sc : C, (MergedItems bases sc indices 0 (totalLen bases)).Len = (indices.length : Int)) ∧
      (∀ (i j a : Nat) (b : Items T C) (o1 o2 : Int), i < j → bases[a]? = some b →
        0 ≤ o1 → o1 < b.Len → 0 ≤ o2 → o2 < b.Len →
        indices[i]? = some (totalLen (bases.take a) + o1) →
        indices[j]? = some (totalLen (bases.take a) + o2) → o1 < o2) := by
  have hnn : ∀ b ∈ bases, 0 ≤ b.Len := fun b hb => (hacc b hb).1
  have hnn' : 0 ≤ totalLen bases := totalLen_nonneg _ hnn
  obtain ⟨offsets, picks, hsort, hinv, hlen⟩ := sort_spec less bases hne hacc
  have hmem := sortInv_final_mem hinv hnn' hlen
  have hvalid : ∀ p ∈ picks, ∃ b, bases[p.1]? = some b ∧ (p.2 : Int) < b.Len :=
    fun p hp => (hmem p.1 p.2).mp hp
  have hres : ∀ p ∈ picks, indexLoop bases 0 (absPos bases p) = Sum.inl (p.1, (p.2 : Int)) := by
    intro p hp
    obtain ⟨b, hb, ho⟩ := hvalid p hp
    exact pick_resolve bases hnn p b hb ho
  have hnodup : picks.Nodup := hinv.hord.imp (fun h => pickBefore_ne h)
  have hinj : ∀ p ∈ picks, ∀ q ∈ picks, absPos bases p = absPos bases q → p = q := by
    intro p hp q hq h
    have h1 := hres p hp
    rw [h, hres q hq] at h1
    simp only [Sum.inl.injEq, Prod.mk.injEq, Nat.cast_inj] at h1
    exact Prod.ext h1.1.symm h1.2.symm
  have hnodup' : (picks.map (absPos bases)).Nodup := List.Nodup.map_on hinj hnodup
  have hsub : picks.map (absPos bases) ⊆ identityOrder (totalLen bases).toNat := by
    intro x hx
    obtain ⟨p, hp, rfl⟩ := List.mem_map.mp hx
    obtain ⟨b, hb, ho⟩ := hvalid p hp
    obtain ⟨h1, h2⟩ := totalLen_take_bounds bases hnn p.1 b hb
    rw [mem_identityOrder, absPos_eq bases p b hb]
    refine ⟨(totalLen (bases.take p.1) + (p.2 : Int)).toNat, by omega, by omega⟩
  refine ⟨picks.map (absPos bases), hsort, ?_, ?_, ?_, ?_⟩
  · apply (List.subperm_of_subset hnodup' hsub).perm_of_length_le
    rw [length_identityOrder, List.length_map, hlen]
  · rw [List.length_map, hlen]
    exact Int.toNat_of_nonneg hnn'
  · intro sc
    rw [List.length_map, hlen]
    simp only [Items.Len, sub_zero]
    exact (Int.toNat_of_nonneg hnn').symm
  · intro i j a b o1 o2 hij hb h1 h2 h3 h4 hi hj
    rw [List.getElem?_map] at hi hj
    cases hpi : picks[i]? with
    | none => rw [hpi] at hi; cases hi
    | some p =>
      cases hpj : picks[j]? with
      | none => rw [hpj] at hj; cases hj
      | some q =>
        rw [hpi] at hi
        rw [hpj] at hj
        simp only [Option.map_some', Option.some.injEq] at hi hj
        have hp := hres p (List.getElem?_mem hpi)
        have hq := hres q (List.getElem?_mem hpj)
        rw [hi, indexLoop_resolve bases 0 a b o1 hnn hb h1 h2] at hp
        rw [hj, indexLoop_resolve bases 0 a b o2 hnn hb h3 h4] at hq
        simp only [Nat.zero_add, Sum.inl.injEq, Prod.mk.injEq] at hp hq
        have hil : i < picks.length := (List.getElem?_eq_some_iff.mp hpi).1
        have hjl : j < picks.length := (List.getElem?_eq_some_iff.mp hpj).1
        have hpb := List.pairwise_iff_getElem.mp hinv.hord i j hil hjl hij
        have e1 : picks[i] = p := by
          have := List.getElem?_eq_getElem hil
          rw [hpi] at this
          exact (Option.some.inj this).symm
        have e2 : picks[j] = q := by
          have := List.getElem?_eq_getElem hjl
          rw [hpj] at this
          exact (Option.some.inj this).symm
        rw [e1, e2] at hpb
        have := hpb.1 (by rw [← hp.1, ← hq.1])
        omega

end Permutation

/-- Witness of C22: the bases `[1, 3]` and `[2, 4]` merged under `<`. -/
theorem sort_permutation_witness :
    ∃ indices, MergedItems.sort [base 1 [1, 3], base 2 [2, 4]] ltNat = some indices ∧
      indices.Perm (identityOrder 4) ∧ (indices.length : Int) = 4 := by
  obtain ⟨indices, h1, h2, h3, _⟩ :=
    sort_permutation (C := Nat) ltNat [base 1 [1, 3], base 2 [2, 4]] (by simp) (by decide)
  exact ⟨indices, h1, h2, h3⟩

section IndexResolution
variable {T C : Type}

theorem flattenBases_of_not_merged (items : List (Items T C))
    (hnm : ∀ u ∈ items, u.isMerged = false) :
    ∀ b ∈ flattenBases items, b ∈ items ∧ b.Len ≠ 0 := by
  induction items with
  | nil => intro b hb; cases hb
  | cons v rest ih =>
    have hrest := ih (fun u hu => hnm u (List.mem_cons_of_mem _ hu))
    have hv := hnm v (List.mem_cons_self _ _)
    intro b hb
    unfold flattenBases at hb
    by_cases h : v.Len = 0
    · rw [if_pos h] at hb
      exact ⟨List.mem_cons_of_mem _ (hrest b hb).1, (hrest b hb).2⟩
    · rw [if_neg h, List.mem_append] at hb
      rcases hb with hb | hb
      · have hbv : b = v := by
          cases v <;> simp_all [appendBases, Items.isMerged]
        rw [hbv]
        exact ⟨List.mem_cons_self _ _, h⟩
      · exact ⟨List.mem_cons_of_mem _ (hrest b hb).1, (hrest b hb).2⟩

theorem narrow_merged (bases : List (Items T C)) (sc : C) (indices : List Int) (n : Int) :
    ∀ (cuts : List (Int × Int)) (start stop : Int) (m : Items T C),
      0 ≤ start → start ≤ stop → stop ≤ n →
      narrow (MergedItems bases sc indices start stop) cuts = some m →
      ∃ start1 stop1, m = MergedItems bases sc indices start1 stop1 ∧
        0 ≤ start1 ∧ start1 ≤ stop1 ∧ stop1 ≤ n := by
  intro cuts
  induction cuts with
  | nil =>
    intro start stop m h0 h1 h2 h
    simp only [narrow, Option.some.injEq] at h
    exact ⟨start, stop, h.symm, h0, h1, h2⟩
  | cons c cuts ih =>
    intro start stop m h0 h1 h2 h
    obtain ⟨s, e⟩ := c
    simp only [narrow, Items.Len, Items.Slice] at h
    by_cases hc : 0 ≤ s ∧ s ≤ e ∧ e ≤ stop - start
    · rw [if_pos hc] at h
      exact ih (start + s) (start + s + (e - s)) m (by omega) (by omega) (by omega) h
    · rw [if_neg hc] at h
      cases h

end IndexResolution

section IndexResolutionClaim
variable {T C : Type} [DecidableEq C] [Inhabited C]

/-- C21: for the merge view `MergeItems` returns over two or more sources, none of them a
merge view and at least one non-empty (so in particular over at least two non-empty
sources; the sources are accessible and their `Container()` does not panic), narrowed by
any sequence of valid `Slice` calls, every access `0 <= i < Len()` resolves to an owning
base: the loop of `index` returns `(a, b)` from inside, so neither the `idx == 0` fallback
nor the panic is reached, with `a` a base, `0 <= b < bases[a].Len()`, and `b` plus the
total length of the bases before `a` equal to the permutation entry of `i`. -/
theorem index_resolves (pre rest : List (Items T C)) (v : Items T C) (less : T → T → Bool)
    (h2 : 2 ≤ (pre ++ v :: rest).length) (hv : 0 < v.Len)
    (hnm : ∀ u ∈ pre ++ v :: rest, u.isMerged = false)
    (hC : ∀ u ∈ pre ++ v :: rest, u.Len ≠ 0 → (u.Container).isSome = true)
    (hacc : ∀ u ∈ pre ++ v :: rest, u.Accessible) :
    ∃ sc indices,
      MergeItems (pre ++ v :: rest) less
        = some (MergedItems (flattenBases (pre ++ v :: rest)) sc indices 0
            (totalLen (flattenBases (pre ++ v :: rest)))) ∧
      ∀ (cuts : List (Int × Int)) (m : Items T C),
        narrow (MergedItems (flattenBases (pre ++ v :: rest)) sc indices 0
          (totalLen (flattenBases (pre ++ v :: rest)))) cuts = some m →
        ∃ start stop,
          m = MergedItems (flattenBases (pre ++ v :: rest)) sc indices start stop ∧
          ∀ i : Int, 0 ≤ i → i < m.Len →
            ∃ (a : Nat) (b e : Int) (owner : Items T C),
              getI indices (i + start) = some e ∧
              indexLoop (flattenBases (pre ++ v :: rest)) 0 e = Sum.inl (a, b) ∧
              index (flattenBases (pre ++ v :: rest)) indices start i = some (a, b) ∧
              (flattenBases (pre ++ v :: rest))[a]? = some owner ∧
              0 ≤ b ∧ b < owner.Len ∧
              b + totalLen ((flattenBases (pre ++ v :: rest)).take a) = e := by
  have hsrc := flattenBases_of_not_merged (pre ++ v :: rest) hnm
  have hacc' : ∀ b ∈ flattenBases (pre ++ v :: rest), b.Accessible :=
    fun b hb => hacc b (hsrc b hb).1
  have hnn : ∀ b ∈ flattenBases (pre ++ v :: rest), 0 ≤ b.Len := fun b hb => (hacc' b hb).1
  have hnn' : 0 ≤ totalLen (flattenBases (pre ++ v :: rest)) := totalLen_nonneg _ hnn
  have hvne : ¬ (v.Len = 0) := by omega
  have hne : flattenBases (pre ++ v :: rest) ≠ [] := by
    intro h
    have h1 : flattenBases (pre ++ v :: rest)
        = flattenBases pre ++ (appendBases [] v ++ flattenBases rest) := by
      rw [flattenBases_append]
      congr 1
      simp only [flattenBases, if_neg hvne]
    rw [h1] at h
    have h2 := (List.append_eq_nil.mp (List.append_eq_nil.mp h).2).1
    have hvm := hnm v (List.mem_append_right _ (List.mem_cons_self _ _))
    cases v <;> simp_all [appendBases, Items.isMerged]
  obtain ⟨sc, has, first, hloop⟩ := mergeLoop_bases (pre ++ v :: rest) (default, false, true, []) hC
  simp only [List.nil_append] at hloop
  obtain ⟨offsets, picks, hsort, hinv, hlen⟩ :=
    sort_spec less (flattenBases (pre ++ v :: rest)) hne hacc'
  have hmem := sortInv_final_mem hinv hnn' hlen
  refine ⟨if !has then default else sc,
    picks.map (absPos (flattenBases (pre ++ v :: rest))), ?_, ?_⟩
  · rw [MergeItems_of_two _ less h2, hloop]
    simp only [hsort]
  · intro cuts m hm
    obtain ⟨start, stop, hmeq, h0, h1, hstop⟩ :=
      narrow_merged _ _ _ (totalLen (flattenBases (pre ++ v :: rest))) cuts 0 _ m
        (le_refl 0) hnn' (le_refl _) hm
    refine ⟨start, stop, hmeq, ?_⟩
    intro i hi0 hi1
    rw [hmeq] at hi1
    simp only [Items.Len] at hi1
    have hk : (i + start).toNat < picks.length := by omega
    obtain ⟨p, hpk⟩ : ∃ p, picks[(i + start).toNat]? = some p :=
      ⟨_, List.getElem?_eq_getElem hk⟩
    obtain ⟨owner, hb, ho⟩ := (hmem _ _).mp (List.getElem?_mem hpk)
    have hget : getI (picks.map (absPos (flattenBases (pre ++ v :: rest)))) (i + start)
        = some (absPos (flattenBases (pre ++ v :: rest)) p) := by
      unfold getI
      rw [if_neg (by omega), List.getElem?_map, hpk]
      rfl
    have hloopres := pick_resolve _ hnn p owner hb ho
    have hlenne : (picks.map (absPos (flattenBases (pre ++ v :: rest)))).length ≠ 0 := by
      rw [List.length_map]; omega
    refine ⟨p.1, (p.2 : Int), absPos (flattenBases (pre ++ v :: rest)) p, owner, hget,
      hloopres, ?_, hb, by omega, ho, ?_⟩
    · unfold index
      simp only [hlenne, ne_eq, not_false_eq_true, if_true, hget, hloopres]
    · rw [absPos_eq _ _ owner hb]
      omega

end IndexResolutionClaim

/-- Witness of C21: the merge of `[1, 3]`, an empty view and `[2, 4]`, narrowed twice. -/
theorem index_resolves_witness :
    ∃ sc indices,
      MergeItems [base 1 [1, 3], NoItems, base 2 [2, 4]] ltNat
        = some (MergedItems [base 1 [1, 3], base 2 [2, 4]] sc indices 0 4) ∧
      ∀ (m : Items Nat Nat),
        narrow (MergedItems [base 1 [1, 3], base 2 [2, 4]] sc indices 0 4) [(1, 4), (0, 2)]
          = some m →
        ∃ start stop, m = MergedItems [base 1 [1, 3], base 2 [2, 4]] sc indices start stop := by
  obtain ⟨sc, indices, h1, h2⟩ :=
    index_resolves [] [NoItems, base 2 [2, 4]] (base 1 [1, 3]) ltNat
      (by decide) (by decide) (by decide) (by decide) (by decide)
  refine ⟨sc, indices, h1, ?_⟩
  intro m hm
  obtain ⟨start, stop, hmeq, _⟩ := h2 [(1, 4), (0, 2)] m hm
  exact ⟨start, stop, hmeq⟩
